import Mathlib

/-!
Shallow embedding of the curve-reconstruction core of the `tides` repository.

Sources embedded here (minutes and heights are modelled as exact rationals,
the real-valued sine of the half-sine strategy as `Real.sin`):

* `src/archive/test_display_with_usgs.py` / `src/archive/final_test_stage.py`:
  `time_str_to_minutes` (with Python `datetime.strptime` for the formats
  `%H:%M` and `%I:%M %p` modelled by the regular expressions Python's
  `_strptime` compiles for those directives), `linear_interpolate`,
  `half_sine_interpolate`, the Lagrange `polynomial_fit_interpolate`,
  the three-day series construction (`parse_tides` / `parse_stage` plus
  `list.sort`) and the sampling loop of `draw_tide_waveform`.

Python exceptions are modelled with `Except`: the Lagrange interpolator's
divisions are the only statements of the embedded core that can raise
(`ZeroDivisionError`), every other failure path of the source returns `None`,
modelled as `Option.none`.  Python's `list.sort` on `(minute, value)` tuples
is modelled by `List.mergeSort` under the lexicographic order `pythonLe`
(Python's sort is stable and total on these tuples, so the result is the
unique `pythonLe`-sorted permutation).  The numeric conversion
`float(height_str.replace("ft", "").strip())` of tide heights is treated as
the input boundary: entries carry an already-converted rational height.
-/

/-! ## Time normalizer (`time_str_to_minutes`) -/

/-- Numeric value of a decimal digit character (Python `int` of a digit). -/
def digitVal (c : Char) : ℕ := c.toNat - 48

/-- The regex Python's `_strptime` uses for `%H`: `2[0-3]|[0-1]\d|\d`,
alternatives tried left to right, returning the value and the rest. -/
def matchH : List Char → Option (ℕ × List Char)
  | c1 :: c2 :: rest =>
    if c1 = '2' ∧ '0' ≤ c2 ∧ c2 ≤ '3' then some (20 + digitVal c2, rest)
    else if (c1 = '0' ∨ c1 = '1') ∧ c2.isDigit then some (digitVal c1 * 10 + digitVal c2, rest)
    else if c1.isDigit then some (digitVal c1, c2 :: rest)
    else none
  | [c1] => if c1.isDigit then some (digitVal c1, []) else none
  | [] => none

/-- The regex Python's `_strptime` uses for `%M`: `[0-5]\d|\d`. -/
def matchM : List Char → Option (ℕ × List Char)
  | c1 :: c2 :: rest =>
    if '0' ≤ c1 ∧ c1 ≤ '5' ∧ c2.isDigit then some (digitVal c1 * 10 + digitVal c2, rest)
    else if c1.isDigit then some (digitVal c1, c2 :: rest)
    else none
  | [c1] => if c1.isDigit then some (digitVal c1, []) else none
  | [] => none

/-- The regex Python's `_strptime` uses for `%I`: `1[0-2]|0[1-9]|[1-9]`. -/
def matchI : List Char → Option (ℕ × List Char)
  | c1 :: c2 :: rest =>
    if c1 = '1' ∧ '0' ≤ c2 ∧ c2 ≤ '2' then some (10 + digitVal c2, rest)
    else if c1 = '0' ∧ '1' ≤ c2 ∧ c2 ≤ '9' then some (digitVal c2, rest)
    else if '1' ≤ c1 ∧ c1 ≤ '9' then some (digitVal c1, c2 :: rest)
    else none
  | [c1] => if '1' ≤ c1 ∧ c1 ≤ '9' then some (digitVal c1, []) else none
  | [] => none

/-- Literal `:` of the format strings. -/
def matchColon : List Char → Option (List Char)
  | ':' :: rest => some rest
  | _ => none

/-- A whitespace run in a strptime format matches `\s+` (at least one). -/
def matchWs1 : List Char → Option (List Char)
  | c :: rest => if c.isWhitespace then some (rest.dropWhile (fun d => d.isWhitespace)) else none
  | [] => none

/-- `%p`: `am|pm`, case-insensitively; `true` means PM. -/
def matchAMPM : List Char → Option (Bool × List Char)
  | c1 :: c2 :: rest =>
    if (c1 = 'A' ∨ c1 = 'a') ∧ (c2 = 'M' ∨ c2 = 'm') then some (false, rest)
    else if (c1 = 'P' ∨ c1 = 'p') ∧ (c2 = 'M' ∨ c2 = 'm') then some (true, rest)
    else none
  | _ => none

/-- `datetime.strptime(s, "%H:%M")`, as (hour, minute); `none` on
`ValueError`.  The whole string must be consumed. -/
def strptimeHM (cs : List Char) : Option (ℕ × ℕ) :=
  match matchH cs with
  | none => none
  | some (h, r1) =>
    match matchColon r1 with
    | none => none
    | some r2 =>
      match matchM r2 with
      | none => none
      | some (m, r3) => if r3 = [] then some (h, m) else none

/-- `datetime.strptime(s, "%I:%M %p")`, as (24h hour, minute), applying
Python's 12-hour conversion: 12 AM is hour 0, 12 PM stays 12, other PM
hours gain 12. -/
def strptimeIMp (cs : List Char) : Option (ℕ × ℕ) :=
  match matchI cs with
  | none => none
  | some (h12, r1) =>
    match matchColon r1 with
    | none => none
    | some r2 =>
      match matchM r2 with
      | none => none
      | some (m, r3) =>
        match matchWs1 r3 with
        | none => none
        | some r4 =>
          match matchAMPM r4 with
          | none => none
          | some (isPM, r5) =>
            if r5 = [] then
              some ((if isPM then (if h12 = 12 then 12 else h12 + 12)
                     else (if h12 = 12 then 0 else h12)), m)
            else none

/-- `pat` is a prefix of `s` (character-wise). -/
def leadMatch : List Char → List Char → Bool
  | [], _ => true
  | _ :: _, [] => false
  | p :: ps, c :: cs => p = c && leadMatch ps cs

/-- Python's substring containment `pat in s`. -/
def containsSub (pat s : List Char) : Bool :=
  s.tails.any (fun t => leadMatch pat t)

/-- `time_str_to_minutes` of `test_display_with_usgs.py` (lines 23-32):
dispatch on a literal `AM`/`PM` occurring anywhere in the string; the
24-hour branch first strips every leading `'0'` (Python `lstrip("0")`);
any parse failure is caught and becomes `None`. -/
def time_str_to_minutes (time_str : String) : Option ℕ :=
  if containsSub ['A', 'M'] time_str.toList ∨ containsSub ['P', 'M'] time_str.toList then
    match strptimeIMp time_str.toList with
    | some (h, m) => some (h * 60 + m)
    | none => none
  else
    match strptimeHM (time_str.toList.dropWhile (fun c => c = '0')) with
    | some (h, m) => some (h * 60 + m)
    | none => none

/-! ## Event series builder -/

/-- `parse_tides` of `draw_tide_waveform` (`test_display_with_usgs.py`
lines 107-114): an entry is `(label, time_str, height)`; the height
conversion `float(height_str.replace("ft", "").strip())` is modelled at the
boundary as the rational third component; entries whose time fails to parse
are dropped. -/
def parse_tides (tides : List (String × String × ℚ)) (day_offset_mins : ℚ) : List (ℚ × ℚ) :=
  tides.filterMap (fun e =>
    match time_str_to_minutes e.2.1 with
    | some t => some ((t : ℚ) + day_offset_mins, e.2.2)
    | none => none)

/-- `parse_stage_history` (`test_display_with_usgs.py` lines 116-124):
a measurement contributes `(minutes + offset, stage)` when both fields are
present (`dict.get` returning `None` is modelled by `Option`). -/
def parse_stage (stage_list : List (Option ℚ × Option ℚ)) (day_offset_mins : ℚ) :
    List (ℚ × ℚ) :=
  stage_list.filterMap (fun m =>
    match m.1, m.2 with
    | some t, some s => some (t + day_offset_mins, s)
    | _, _ => none)

/-- Python's ascending order on `(minute, value)` tuples (lexicographic),
as used by `list.sort()` on the combined three-day event list. -/
def pythonLe (a b : ℚ × ℚ) : Bool :=
  decide (a.1 < b.1 ∨ (a.1 = b.1 ∧ a.2 ≤ b.2))

/-- The three-day combined tide series of `draw_tide_waveform`
(`test_display_with_usgs.py` lines 126-129 and 145): prior shifted by
`-24*60`, today by `0`, next by `+24*60`, concatenated and sorted. -/
def build_tide_series (prior today next : List (String × String × ℚ)) : List (ℚ × ℚ) :=
  (parse_tides prior (-(24 * 60)) ++ parse_tides today 0 ++
    parse_tides next (24 * 60)).mergeSort pythonLe

/-- The three-day combined stage series `all_events_jenner`
(`final_test_stage.py` lines 94-99). -/
def build_stage_series (prior today next : List (Option ℚ × Option ℚ)) : List (ℚ × ℚ) :=
  (parse_stage prior (-1440) ++ parse_stage today 0 ++
    parse_stage next 1440).mergeSort pythonLe

/-! ## Interpolation engine -/

/-- The bracket loop of `linear_interpolate` (`for i in range(len(events)-1)`
returning on the first pair with `t1 <= t_min <= t2`; falls off the end with
`None`). -/
def linearLoop (t : ℚ) : List (ℚ × ℚ) → Option ℚ
  | e1 :: e2 :: rest =>
    if e1.1 ≤ t ∧ t ≤ e2.1 then
      if e2.1 = e1.1 then some e1.2
      else some (e1.2 + (t - e1.1) / (e2.1 - e1.1) * (e2.2 - e1.2))
    else linearLoop t (e2 :: rest)
  | _ => none

/-- `linear_interpolate` (`test_display_with_usgs.py` lines 34-54 /
`final_test_stage.py` lines 9-28): empty guard, flat clamps strictly outside
the range, then the bracket loop. -/
def linear_interpolate (t : ℚ) (events : List (ℚ × ℚ)) : Option ℚ :=
  match events with
  | [] => none
  | e0 :: rest =>
    if t < e0.1 then some e0.2
    else if t > ((e0 :: rest).getLast (List.cons_ne_nil e0 rest)).1 then
      some (((e0 :: rest).getLast (List.cons_ne_nil e0 rest)).2)
    else linearLoop t (e0 :: rest)

/-- The bracket loop of `half_sine_interpolate`: on the first bracketing
pair, midpoint `m`, amplitude `a`, `frac`, and `m + a*sin(pi*frac - pi/2)`;
a degenerate pair (`t2 == t1`) returns `h1`. -/
noncomputable def halfSineLoop (t : ℚ) : List (ℚ × ℚ) → Option ℝ
  | e1 :: e2 :: rest =>
    if e1.1 ≤ t ∧ t ≤ e2.1 then
      if e2.1 = e1.1 then some (e1.2 : ℝ)
      else
        some (((0.5 * (e1.2 + e2.2) : ℚ) : ℝ) + ((0.5 * (e2.2 - e1.2) : ℚ) : ℝ) *
          Real.sin (Real.pi * (((t - e1.1) / (e2.1 - e1.1) : ℚ) : ℝ) - Real.pi / 2))
    else halfSineLoop t (e2 :: rest)
  | _ => none

/-- `half_sine_interpolate` (`test_display_with_usgs.py` lines 79-102):
`None` below 2 points, flat clamps strictly outside the range, then the
half-sine bracket loop. -/
noncomputable def half_sine_interpolate (t : ℚ) (events : List (ℚ × ℚ)) : Option ℝ :=
  match events with
  | [] => none
  | [_] => none
  | e0 :: e1 :: rest =>
    if t < e0.1 then some (e0.2 : ℝ)
    else if t > ((e0 :: e1 :: rest).getLast (List.cons_ne_nil e0 (e1 :: rest))).1 then
      some ((((e0 :: e1 :: rest).getLast (List.cons_ne_nil e0 (e1 :: rest))).2 : ℝ))
    else halfSineLoop t (e0 :: e1 :: rest)

/-- The interval search of `polynomial_fit_interpolate`
(`final_test_stage.py` lines 44-48): index of the first `i` with
`times[i] <= t_min <= times[i+1]`. -/
def find_interval (t : ℚ) : List ℚ → Option ℕ
  | x :: y :: rest =>
    if x ≤ t ∧ t ≤ y then some 0
    else (find_interval t (y :: rest)).map (fun i => i + 1)
  | _ => none

/-- Python division, which raises `ZeroDivisionError` on a zero divisor. -/
def pydiv (a b : ℚ) : Except String ℚ :=
  if b = 0 then .error "ZeroDivisionError" else .ok (a / b)

/-- The inner loop of the Lagrange sum (`final_test_stage.py` lines 63-66):
`for j, x_j in enumerate(x_points): if i != j: term *= (t_min - x_j) / (x_i - x_j)`,
accumulating into `term`; `j` is the enumeration index. -/
def lagInner (t xi : ℚ) (i : ℕ) : ℕ → List ℚ → ℚ → Except String ℚ
  | _, [], term => .ok term
  | j, xj :: rest, term =>
    if i ≠ j then
      match pydiv (t - xj) (xi - xj) with
      | .error e => .error e
      | .ok q => lagInner t xi i (j + 1) rest (term * q)
    else lagInner t xi i (j + 1) rest term

/-- The outer loop of the Lagrange sum (`final_test_stage.py` lines 61-67):
`for i, (x_i, y_i) in enumerate(zip(x_points, y_points)):` with
`term = y_i` before the inner loop and `result += term` after it. -/
def lagOuter (t : ℚ) (xs : List ℚ) : ℕ → List (ℚ × ℚ) → ℚ → Except String ℚ
  | _, [], result => .ok result
  | i, p :: rest, result =>
    match lagInner t p.1 i 0 xs p.2 with
    | .error e => .error e
    | .ok term => lagOuter t xs (i + 1) rest (result + term)

/-- The window `x_points = times[max(0, idx-2) : min(len(times), idx+3)]`
of `polynomial_fit_interpolate` (`final_test_stage.py` lines 54-57): in `ℕ`,
`idx - 2` already truncates at `0` like Python's `max(0, idx - 2)`, and
`times` has the length of `events`. -/
def x_points (events : List (ℚ × ℚ)) (idx : ℕ) : List ℚ :=
  ((events.map Prod.fst).drop (idx - 2)).take (min events.length (idx + 3) - (idx - 2))

/-- The window `y_points = values[start_idx:end_idx]` of
`polynomial_fit_interpolate` (`final_test_stage.py` line 58). -/
def y_points (events : List (ℚ × ℚ)) (idx : ℕ) : List ℚ :=
  ((events.map Prod.snd).drop (idx - 2)).take (min events.length (idx + 3) - (idx - 2))

/-- `polynomial_fit_interpolate` (`final_test_stage.py` lines 30-69), the
Lagrange variant the spec describes: `None` below 2 points, flat clamps,
interval search (falling back to `linear_interpolate` over the whole series
when no interval is found), then the Lagrange sum over the 5-point window. -/
def polynomial_fit_interpolate (t : ℚ) (events : List (ℚ × ℚ)) : Except String (Option ℚ) :=
  match events with
  | [] => .ok none
  | e0 :: rest =>
    if (e0 :: rest).length < 2 then .ok none
    else if t < e0.1 then .ok (some e0.2)
    else if t > ((e0 :: rest).getLast (List.cons_ne_nil e0 rest)).1 then
      .ok (some (((e0 :: rest).getLast (List.cons_ne_nil e0 rest)).2))
    else
      match find_interval t ((e0 :: rest).map Prod.fst) with
      | none => .ok (linear_interpolate t (e0 :: rest))
      | some idx =>
        match lagOuter t (x_points (e0 :: rest) idx) 0
            ((x_points (e0 :: rest) idx).zip (y_points (e0 :: rest) idx)) 0 with
        | .error e => .error e
        | .ok r => .ok (some r)

/-! ## Curve sampler -/

/-- The query minutes of the sampling loop of `draw_tide_waveform`
(`test_display_with_usgs.py` line 166): Python `range(0, 24*60 + 1, step)`. -/
def sampleMinutes (step : ℕ) : List ℕ :=
  List.range' 0 (24 * 60 / step + 1) step

/-- The point sequence the sampling loop of `draw_tide_waveform` emits for
one curve (lines 166-172), before pixel mapping: a `(minute, value)` point
for each query minute at which interpolation yields a value; `None` results
are skipped. -/
noncomputable def sample_points (events : List (ℚ × ℚ)) (step : ℕ) : List (ℕ × ℝ) :=
  (sampleMinutes step).filterMap (fun (t : ℕ) =>
    match half_sine_interpolate (t : ℚ) events with
    | some v => some (t, v)
    | none => none)

/-! ## Lemmas: time normalizer bounds -/

theorem digitVal_le_of_isDigit {c : Char} (h : c.isDigit = true) : digitVal c ≤ 9 := by
  simp [Char.isDigit] at h
  obtain ⟨h1, h2⟩ := h
  have h3 : c.toNat ≤ 57 := by simpa using h2
  simp only [digitVal]
  omega

theorem matchH_le {cs r : List Char} {h : ℕ} (hm : matchH cs = some (h, r)) : h ≤ 23 := by
  match cs with
  | [] => simp [matchH] at hm
  | [c1] =>
    rw [matchH] at hm
    split at hm
    · rename_i hd
      have h9 := digitVal_le_of_isDigit hd
      simp only [Option.some.injEq, Prod.mk.injEq] at hm
      omega
    · simp at hm
  | c1 :: c2 :: rest =>
    rw [matchH] at hm
    split at hm
    · rename_i hc
      have h3 : c2.toNat ≤ 51 := hc.2.2
      simp only [Option.some.injEq, Prod.mk.injEq, digitVal] at hm
      omega
    · split at hm
      · rename_i hc
        have h9 := digitVal_le_of_isDigit hc.2
        have h1 : digitVal c1 ≤ 1 := by
          rcases hc.1 with h0 | h0 <;> simp [h0, digitVal]
        simp only [Option.some.injEq, Prod.mk.injEq] at hm
        omega
      · split at hm
        · rename_i hd
          have h9 := digitVal_le_of_isDigit hd
          simp only [Option.some.injEq, Prod.mk.injEq] at hm
          omega
        · simp at hm

theorem matchM_le {cs r : List Char} {m : ℕ} (hm : matchM cs = some (m, r)) : m ≤ 59 := by
  match cs with
  | [] => simp [matchM] at hm
  | [c1] =>
    rw [matchM] at hm
    split at hm
    · rename_i hd
      have h9 := digitVal_le_of_isDigit hd
      simp only [Option.some.injEq, Prod.mk.injEq] at hm
      omega
    · simp at hm
  | c1 :: c2 :: rest =>
    rw [matchM] at hm
    split at hm
    · rename_i hc
      have h5 : c1.toNat ≤ 53 := hc.2.1
      have h9 := digitVal_le_of_isDigit hc.2.2
      simp only [Option.some.injEq, Prod.mk.injEq, digitVal] at hm
      simp only [digitVal] at h9
      omega
    · split at hm
      · rename_i hd
        have h9 := digitVal_le_of_isDigit hd
        simp only [Option.some.injEq, Prod.mk.injEq] at hm
        omega
      · simp at hm

theorem matchI_le {cs r : List Char} {h : ℕ} (hm : matchI cs = some (h, r)) : h ≤ 12 := by
  match cs with
  | [] => simp [matchI] at hm
  | [c1] =>
    rw [matchI] at hm
    split at hm
    · rename_i hc
      have h9 : c1.toNat ≤ 57 := hc.2
      simp only [Option.some.injEq, Prod.mk.injEq, digitVal] at hm
      omega
    · simp at hm
  | c1 :: c2 :: rest =>
    rw [matchI] at hm
    split at hm
    · rename_i hc
      have h2 : c2.toNat ≤ 50 := hc.2.2
      simp only [Option.some.injEq, Prod.mk.injEq, digitVal] at hm
      omega
    · split at hm
      · rename_i hc
        have h9 : c2.toNat ≤ 57 := hc.2.2
        simp only [Option.some.injEq, Prod.mk.injEq, digitVal] at hm
        omega
      · split at hm
        · rename_i hc
          have h9 : c1.toNat ≤ 57 := hc.2
          simp only [Option.some.injEq, Prod.mk.injEq, digitVal] at hm
          omega
        · simp at hm

theorem strptimeHM_le {cs : List Char} {h m : ℕ} (hp : strptimeHM cs = some (h, m)) :
    h ≤ 23 ∧ m ≤ 59 := by
  rw [strptimeHM] at hp
  split at hp
  · simp at hp
  · rename_i hH
    split at hp
    · simp at hp
    · split at hp
      · simp at hp
      · rename_i hM
        split at hp
        · simp only [Option.some.injEq, Prod.mk.injEq] at hp
          obtain ⟨e1, e2⟩ := hp
          subst e1
          subst e2
          exact ⟨matchH_le hH, matchM_le hM⟩
        · simp at hp

theorem strptimeIMp_le {cs : List Char} {h m : ℕ} (hp : strptimeIMp cs = some (h, m)) :
    h ≤ 23 ∧ m ≤ 59 := by
  rw [strptimeIMp] at hp
  split at hp
  · simp at hp
  · rename_i hI
    split at hp
    · simp at hp
    · split at hp
      · simp at hp
      · rename_i hM
        split at hp
        · simp at hp
        · split at hp
          · simp at hp
          · split at hp
            · simp only [Option.some.injEq, Prod.mk.injEq] at hp
              obtain ⟨e1, e2⟩ := hp
              subst e2
              have hi := matchI_le hI
              have hmm := matchM_le hM
              refine ⟨?_, hmm⟩
              rw [← e1]
              split
              · split <;> omega
              · split <;> omega
            · simp at hp

theorem time_str_to_minutes_le {s : String} {n : ℕ}
    (hp : time_str_to_minutes s = some n) : n ≤ 1439 := by
  rw [time_str_to_minutes] at hp
  split at hp
  · split at hp
    · rename_i p h12 m hI
      obtain ⟨h1, h2⟩ := strptimeIMp_le hI
      simp only [Option.some.injEq] at hp
      omega
    · simp at hp
  · split at hp
    · rename_i p h24 m hH
      obtain ⟨h1, h2⟩ := strptimeHM_le hH
      simp only [Option.some.injEq] at hp
      omega
    · simp at hp

/-! ## Lemmas: bracket loops of the linear and half-sine strategies -/

theorem fst_le_getLast_of_mem : ∀ {l : List (ℚ × ℚ)},
    l.Pairwise (fun a b => a.1 < b.1) → ∀ (hne : l ≠ []) (t h : ℚ),
    (t, h) ∈ l → t ≤ (l.getLast hne).1 := by
  intro l hs hne t h hmem
  obtain ⟨i, hi, hEl⟩ := List.mem_iff_getElem.mp hmem
  rw [l.getLast_eq_getElem hne]
  rcases lt_or_eq_of_le (Nat.le_sub_one_of_lt hi) with hlt | heq
  · have := (List.pairwise_iff_getElem.mp hs) i (l.length - 1)
      hi (by omega) hlt
    rw [hEl] at this
    exact le_of_lt this
  · subst heq
    rw [hEl]

theorem head_fst_le_of_mem {e0 : ℚ × ℚ} {rest : List (ℚ × ℚ)}
    (hs : (e0 :: rest).Pairwise (fun a b => a.1 < b.1)) (t h : ℚ)
    (hmem : (t, h) ∈ e0 :: rest) : e0.1 ≤ t := by
  rcases List.mem_cons.mp hmem with heq | hmem2
  · rw [← heq]
  · exact le_of_lt ((List.pairwise_cons.mp hs).1 (t, h) hmem2)

theorem linearLoop_node : ∀ (l : List (ℚ × ℚ)),
    l.Pairwise (fun a b => a.1 < b.1) → ∀ t h : ℚ, (t, h) ∈ l → 2 ≤ l.length →
    linearLoop t l = some h
  | [], _, t, h, hmem, _ => by simp at hmem
  | [e], _, t, h, hmem, hlen => by simp at hlen
  | e1 :: e2 :: rest, hs, t, h, hmem, hlen => by
    obtain ⟨hs1, hs2⟩ := List.pairwise_cons.mp hs
    rcases List.mem_cons.mp hmem with heq | hmem2
    · have ht : t = e1.1 := by rw [← heq]
      have hh : h = e1.2 := by rw [← heq]
      subst ht
      subst hh
      have hlt : e1.1 < e2.1 := hs1 e2 (List.mem_cons_self e2 rest)
      rw [linearLoop, if_pos ⟨le_refl e1.1, le_of_lt hlt⟩, if_neg (ne_of_gt hlt)]
      simp
    · rcases List.mem_cons.mp hmem2 with heq2 | hmem3
      · have ht : t = e2.1 := by rw [← heq2]
        have hh : h = e2.2 := by rw [← heq2]
        subst ht
        subst hh
        have hlt : e1.1 < e2.1 := hs1 e2 (List.mem_cons_self e2 rest)
        rw [linearLoop, if_pos ⟨le_of_lt hlt, le_refl e2.1⟩, if_neg (ne_of_gt hlt)]
        rw [div_self (sub_ne_zero.mpr (ne_of_gt hlt)), one_mul]
        congr 1
        ring
      · have hlt : e2.1 < t := (List.pairwise_cons.mp hs2).1 (t, h) hmem3
        rw [linearLoop, if_neg (fun hc => absurd hc.2 (not_le.mpr hlt))]
        exact linearLoop_node (e2 :: rest) hs2 t h hmem2
          (by have := List.length_pos.mpr (List.ne_nil_of_mem hmem3); simp; omega)

theorem halfSineLoop_node : ∀ (l : List (ℚ × ℚ)),
    l.Pairwise (fun a b => a.1 < b.1) → ∀ t h : ℚ, (t, h) ∈ l → 2 ≤ l.length →
    halfSineLoop t l = some (h : ℝ)
  | [], _, t, h, hmem, _ => by simp at hmem
  | [e], _, t, h, hmem, hlen => by simp at hlen
  | e1 :: e2 :: rest, hs, t, h, hmem, hlen => by
    obtain ⟨hs1, hs2⟩ := List.pairwise_cons.mp hs
    rcases List.mem_cons.mp hmem with heq | hmem2
    · have ht : t = e1.1 := by rw [← heq]
      have hh : h = e1.2 := by rw [← heq]
      subst ht
      subst hh
      have hlt : e1.1 < e2.1 := hs1 e2 (List.mem_cons_self e2 rest)
      rw [halfSineLoop, if_pos ⟨le_refl e1.1, le_of_lt hlt⟩, if_neg (ne_of_gt hlt)]
      rw [show (e1.1 - e1.1) / (e2.1 - e1.1) = 0 by rw [sub_self, zero_div]]
      rw [show Real.pi * ((0 : ℚ) : ℝ) - Real.pi / 2 = -(Real.pi / 2) by push_cast; ring]
      rw [Real.sin_neg, Real.sin_pi_div_two]
      congr 1
      push_cast
      ring
    · rcases List.mem_cons.mp hmem2 with heq2 | hmem3
      · have ht : t = e2.1 := by rw [← heq2]
        have hh : h = e2.2 := by rw [← heq2]
        subst ht
        subst hh
        have hlt : e1.1 < e2.1 := hs1 e2 (List.mem_cons_self e2 rest)
        rw [halfSineLoop, if_pos ⟨le_of_lt hlt, le_refl e2.1⟩, if_neg (ne_of_gt hlt)]
        rw [div_self (sub_ne_zero.mpr (ne_of_gt hlt))]
        rw [show Real.pi * ((1 : ℚ) : ℝ) - Real.pi / 2 = Real.pi / 2 by push_cast; ring]
        rw [Real.sin_pi_div_two, mul_one]
        congr 1
        push_cast
        ring
      · have hlt : e2.1 < t := (List.pairwise_cons.mp hs2).1 (t, h) hmem3
        rw [halfSineLoop, if_neg (fun hc => absurd hc.2 (not_le.mpr hlt))]
        exact halfSineLoop_node (e2 :: rest) hs2 t h hmem2
          (by have := List.length_pos.mpr (List.ne_nil_of_mem hmem3); simp; omega)

theorem linearLoop_bracket : ∀ (l1 : List (ℚ × ℚ)) {l2 : List (ℚ × ℚ)} {t1 h1 t2 h2 q : ℚ},
    (l1 ++ (t1, h1) :: (t2, h2) :: l2).Pairwise (fun a b => a.1 < b.1) →
    t1 < q → q < t2 →
    linearLoop q (l1 ++ (t1, h1) :: (t2, h2) :: l2) =
      some (h1 + (q - t1) / (t2 - t1) * (h2 - h1))
  | [], l2, t1, h1, t2, h2, q, hs, hq1, hq2 => by
    rw [List.nil_append, linearLoop, if_pos ⟨le_of_lt hq1, le_of_lt hq2⟩,
      if_neg (ne_of_gt (lt_trans hq1 hq2))]
  | a :: l1, l2, t1, h1, t2, h2, q, hs, hq1, hq2 => by
    match l1 with
    | [] =>
      rw [List.cons_append, List.nil_append] at hs ⊢
      rw [linearLoop, if_neg (fun hc => absurd hc.2 (not_le.mpr hq1))]
      exact linearLoop_bracket [] (List.pairwise_cons.mp hs).2 hq1 hq2
    | b :: l1' =>
      rw [List.cons_append] at hs ⊢
      have hs2 := (List.pairwise_cons.mp hs).2
      have hbt : b.1 < t1 := by
        rw [List.cons_append] at hs2
        exact (List.pairwise_cons.mp hs2).1 (t1, h1)
          (List.mem_append_right l1' (List.mem_cons_self (t1, h1) ((t2, h2) :: l2)))
      rw [List.cons_append] at hs2 ⊢
      rw [linearLoop, if_neg (fun hc => absurd hc.2 (not_le.mpr (lt_trans hbt hq1)))]
      exact linearLoop_bracket (b :: l1') (by rw [List.cons_append]; exact hs2) hq1 hq2

theorem halfSineLoop_bracket : ∀ (l1 : List (ℚ × ℚ)) {l2 : List (ℚ × ℚ)} {t1 h1 t2 h2 q : ℚ},
    (l1 ++ (t1, h1) :: (t2, h2) :: l2).Pairwise (fun a b => a.1 < b.1) →
    t1 < q → q < t2 →
    halfSineLoop q (l1 ++ (t1, h1) :: (t2, h2) :: l2) =
      some (((0.5 * (h1 + h2) : ℚ) : ℝ) + ((0.5 * (h2 - h1) : ℚ) : ℝ) *
        Real.sin (Real.pi * (((q - t1) / (t2 - t1) : ℚ) : ℝ) - Real.pi / 2))
  | [], l2, t1, h1, t2, h2, q, hs, hq1, hq2 => by
    rw [List.nil_append, halfSineLoop, if_pos ⟨le_of_lt hq1, le_of_lt hq2⟩,
      if_neg (ne_of_gt (lt_trans hq1 hq2))]
  | a :: l1, l2, t1, h1, t2, h2, q, hs, hq1, hq2 => by
    match l1 with
    | [] =>
      rw [List.cons_append, List.nil_append] at hs ⊢
      rw [halfSineLoop, if_neg (fun hc => absurd hc.2 (not_le.mpr hq1))]
      exact halfSineLoop_bracket [] (List.pairwise_cons.mp hs).2 hq1 hq2
    | b :: l1' =>
      rw [List.cons_append] at hs ⊢
      have hs2 := (List.pairwise_cons.mp hs).2
      have hbt : b.1 < t1 := by
        rw [List.cons_append] at hs2
        exact (List.pairwise_cons.mp hs2).1 (t1, h1)
          (List.mem_append_right l1' (List.mem_cons_self (t1, h1) ((t2, h2) :: l2)))
      rw [List.cons_append] at hs2 ⊢
      rw [halfSineLoop, if_neg (fun hc => absurd hc.2 (not_le.mpr (lt_trans hbt hq1)))]
      exact halfSineLoop_bracket (b :: l1') (by rw [List.cons_append]; exact hs2) hq1 hq2

/-! ## Lemmas: clamp-level behaviour of linear and half-sine -/

theorem linear_interpolate_in_range : ∀ {l : List (ℚ × ℚ)} (hne : l ≠ []) {q : ℚ},
    ¬ q < (l.head hne).1 → ¬ q > (l.getLast hne).1 →
    linear_interpolate q l = linearLoop q l := by
  intro l hne q h1 h2
  match l with
  | e0 :: rest =>
    simp only [List.head_cons] at h1
    simp only [linear_interpolate]
    rw [if_neg h1, if_neg h2]

theorem half_sine_interpolate_in_range : ∀ {l : List (ℚ × ℚ)} (hne : l ≠ []) (hlen : 2 ≤ l.length)
    {q : ℚ}, ¬ q < (l.head hne).1 → ¬ q > (l.getLast hne).1 →
    half_sine_interpolate q l = halfSineLoop q l := by
  intro l hne hlen q h1 h2
  match l with
  | [e] => simp at hlen
  | e0 :: e1 :: rest =>
    simp only [List.head_cons] at h1
    simp only [half_sine_interpolate]
    rw [if_neg h1, if_neg h2]

theorem append_head_fst_le {l1 l2 : List (ℚ × ℚ)} {t1 h1 t2 h2 : ℚ}
    (hs : (l1 ++ (t1, h1) :: (t2, h2) :: l2).Pairwise (fun a b => a.1 < b.1)) :
    ((l1 ++ (t1, h1) :: (t2, h2) :: l2).head (by simp)).1 ≤ t1 := by
  match l1 with
  | [] => simp
  | a :: l1' =>
    show a.1 ≤ t1
    rw [List.cons_append] at hs
    exact le_of_lt ((List.pairwise_cons.mp hs).1 (t1, h1)
      (List.mem_append_right l1' (List.mem_cons_self (t1, h1) ((t2, h2) :: l2))))

theorem mem_bracket_left {l1 l2 : List (ℚ × ℚ)} {t1 h1 t2 h2 : ℚ} :
    (t1, h1) ∈ l1 ++ (t1, h1) :: (t2, h2) :: l2 :=
  List.mem_append_right l1 (List.mem_cons_self (t1, h1) ((t2, h2) :: l2))

theorem mem_bracket_right {l1 l2 : List (ℚ × ℚ)} {t1 h1 t2 h2 : ℚ} :
    (t2, h2) ∈ l1 ++ (t1, h1) :: (t2, h2) :: l2 :=
  List.mem_append_right l1 (List.mem_cons_of_mem (t1, h1)
    (List.mem_cons_self (t2, h2) l2))

theorem linear_interpolate_node {l : List (ℚ × ℚ)}
    (hs : l.Pairwise (fun a b => a.1 < b.1)) {t h : ℚ} (hmem : (t, h) ∈ l)
    (hlen : 2 ≤ l.length) : linear_interpolate t l = some h := by
  have hne : l ≠ [] := List.ne_nil_of_mem hmem
  rw [linear_interpolate_in_range hne ?_ ?_]
  · exact linearLoop_node l hs t h hmem hlen
  · match l, hmem with
    | e0 :: rest, hmem =>
      simp only [List.head_cons]
      exact not_lt.mpr (head_fst_le_of_mem hs t h hmem)
  · exact not_lt.mpr (fst_le_getLast_of_mem hs hne t h hmem)

theorem half_sine_interpolate_node {l : List (ℚ × ℚ)}
    (hs : l.Pairwise (fun a b => a.1 < b.1)) {t h : ℚ} (hmem : (t, h) ∈ l)
    (hlen : 2 ≤ l.length) : half_sine_interpolate t l = some (h : ℝ) := by
  have hne : l ≠ [] := List.ne_nil_of_mem hmem
  rw [half_sine_interpolate_in_range hne hlen ?_ ?_]
  · exact halfSineLoop_node l hs t h hmem hlen
  · match l, hmem with
    | e0 :: rest, hmem =>
      simp only [List.head_cons]
      exact not_lt.mpr (head_fst_le_of_mem hs t h hmem)
  · exact not_lt.mpr (fst_le_getLast_of_mem hs hne t h hmem)

theorem linear_interpolate_bracket {l1 l2 : List (ℚ × ℚ)} {t1 h1 t2 h2 q : ℚ}
    (hs : (l1 ++ (t1, h1) :: (t2, h2) :: l2).Pairwise (fun a b => a.1 < b.1))
    (hq1 : t1 < q) (hq2 : q < t2) :
    linear_interpolate q (l1 ++ (t1, h1) :: (t2, h2) :: l2) =
      some (h1 + (q - t1) / (t2 - t1) * (h2 - h1)) := by
  have hne : l1 ++ (t1, h1) :: (t2, h2) :: l2 ≠ [] := by simp
  rw [linear_interpolate_in_range hne ?_ ?_]
  · exact linearLoop_bracket l1 hs hq1 hq2
  · exact not_lt.mpr (le_trans (append_head_fst_le hs) (le_of_lt hq1))
  · exact not_lt.mpr (le_trans (le_of_lt hq2)
      (fst_le_getLast_of_mem hs hne t2 h2 mem_bracket_right))

theorem half_sine_interpolate_bracket {l1 l2 : List (ℚ × ℚ)} {t1 h1 t2 h2 q : ℚ}
    (hs : (l1 ++ (t1, h1) :: (t2, h2) :: l2).Pairwise (fun a b => a.1 < b.1))
    (hq1 : t1 < q) (hq2 : q < t2) :
    half_sine_interpolate q (l1 ++ (t1, h1) :: (t2, h2) :: l2) =
      some (((0.5 * (h1 + h2) : ℚ) : ℝ) + ((0.5 * (h2 - h1) : ℚ) : ℝ) *
        Real.sin (Real.pi * (((q - t1) / (t2 - t1) : ℚ) : ℝ) - Real.pi / 2)) := by
  have hne : l1 ++ (t1, h1) :: (t2, h2) :: l2 ≠ [] := by simp
  have hlen : 2 ≤ (l1 ++ (t1, h1) :: (t2, h2) :: l2).length := by
    simp
    omega
  rw [half_sine_interpolate_in_range hne hlen ?_ ?_]
  · exact halfSineLoop_bracket l1 hs hq1 hq2
  · exact not_lt.mpr (le_trans (append_head_fst_le hs) (le_of_lt hq1))
  · exact not_lt.mpr (le_trans (le_of_lt hq2)
      (fst_le_getLast_of_mem hs hne t2 h2 mem_bracket_right))

/-! ## Lemmas: interval search of the polynomial strategy -/

theorem find_interval_sound : ∀ (times : List ℚ) (q : ℚ) (i : ℕ),
    find_interval q times = some i →
    i + 1 < times.length ∧ times.getD i 0 ≤ q ∧ q ≤ times.getD (i + 1) 0
  | [], q, i, h => by simp [find_interval] at h
  | [x], q, i, h => by simp [find_interval] at h
  | x :: y :: rest, q, i, h => by
    rw [find_interval] at h
    split at h
    · rename_i hc
      simp only [Option.some.injEq] at h
      subst h
      exact ⟨by simp, hc.1, hc.2⟩
    · rw [Option.map_eq_some'] at h
      obtain ⟨j, hj, rfl⟩ := h
      obtain ⟨hb, h1, h2⟩ := find_interval_sound (y :: rest) q j hj
      refine ⟨by simp only [List.length_cons] at hb ⊢; omega, ?_, ?_⟩
      · simpa [List.getD_cons_succ] using h1
      · simpa [List.getD_cons_succ] using h2

theorem find_interval_node : ∀ (times : List ℚ), times.Pairwise (· < ·) →
    ∀ (k : ℕ), k < times.length → 2 ≤ times.length →
    find_interval (times.getD k 0) times = some (k - 1)
  | [], _, k, hk, _ => by simp at hk
  | [x], _, k, hk, hlen => by simp at hlen
  | x :: y :: rest, hs, k, hk, hlen => by
    obtain ⟨hs1, hs2⟩ := List.pairwise_cons.mp hs
    have hxy : x < y := hs1 y (List.mem_cons_self y rest)
    match k with
    | 0 =>
      rw [find_interval, if_pos]
      simp only [List.getD_cons_zero]
      exact ⟨le_refl x, le_of_lt hxy⟩
    | 1 =>
      rw [find_interval, if_pos]
      simp only [List.getD_cons_succ, List.getD_cons_zero]
      exact ⟨le_of_lt hxy, le_refl y⟩
    | (k' + 2) =>
      have hk' : k' + 1 < (y :: rest).length := by simp at hk ⊢; omega
      have hyq : y < (y :: rest).getD (k' + 1) 0 := by
        have := (List.pairwise_iff_getElem.mp hs2) 0 (k' + 1) (by simp) hk' (by omega)
        rw [List.getD_eq_getElem _ _ hk']
        simpa using this
      rw [find_interval]
      rw [if_neg]
      · have hrec := find_interval_node (y :: rest) hs2 (k' + 1) hk'
          (by simp only [List.length_cons] at hk ⊢; omega)
        simp only [List.getD_cons_succ] at hrec ⊢
        rw [hrec]
        simp
      · intro hc
        have hxq : (x :: y :: rest).getD (k' + 2) 0 ≤ y := hc.2
        simp only [List.getD_cons_succ] at hxq
        exact absurd hxq (not_le.mpr hyq)

theorem find_interval_isSome : ∀ (rest : List ℚ) (x y q : ℚ), x ≤ q →
    q ≤ (x :: y :: rest).getLast (by simp) →
    ∃ i, find_interval q (x :: y :: rest) = some i
  | [], x, y, q, hxq, hql => by
    refine ⟨0, ?_⟩
    rw [find_interval, if_pos]
    exact ⟨hxq, by simpa using hql⟩
  | z :: rest', x, y, q, hxq, hql => by
    by_cases hqy : q ≤ y
    · exact ⟨0, by rw [find_interval, if_pos ⟨hxq, hqy⟩]⟩
    · have hyq : y ≤ q := le_of_lt (not_le.mp hqy)
      have hql' : q ≤ (y :: z :: rest').getLast (by simp) := by
        have : (x :: y :: z :: rest').getLast (by simp) =
            (y :: z :: rest').getLast (by simp) := by
          rw [List.getLast_cons]
        rw [← this]
        exact hql
      obtain ⟨i, hi⟩ := find_interval_isSome rest' y z q hyq hql'
      refine ⟨i + 1, ?_⟩
      rw [find_interval, if_neg (fun hc => absurd hc.2 hqy), hi]
      rfl

/-! ## Lemmas: the Lagrange sum loops -/

theorem lagInner_ok : ∀ (l : List ℚ) (t xi : ℚ) (i j0 : ℕ) (acc : ℚ),
    (∀ k, k < l.length → j0 + k ≠ i → xi - l.getD k 0 ≠ 0) →
    lagInner t xi i j0 l acc = .ok (acc * ∏ k in Finset.range l.length,
      if j0 + k = i then 1 else (t - l.getD k 0) / (xi - l.getD k 0))
  | [], t, xi, i, j0, acc, hd => by simp [lagInner]
  | c :: l, t, xi, i, j0, acc, hd => by
    have hd' : ∀ k, k < l.length → (j0 + 1) + k ≠ i → xi - l.getD k 0 ≠ 0 := by
      intro k hk hne
      have := hd (k + 1) (by simp; omega) (by omega)
      simpa [List.getD_cons_succ] using this
    have hshift : ∀ k : ℕ,
        (if j0 + (k + 1) = i then (1 : ℚ)
          else (t - (c :: l).getD (k + 1) 0) / (xi - (c :: l).getD (k + 1) 0)) =
        (if (j0 + 1) + k = i then (1 : ℚ)
          else (t - l.getD k 0) / (xi - l.getD k 0)) := by
      intro k
      simp only [List.getD_cons_succ]
      exact if_congr (by omega) rfl rfl
    rw [lagInner]
    by_cases hij : i ≠ j0
    · rw [if_pos hij]
      have hden : xi - c ≠ 0 := by
        have := hd 0 (by simp) (by simpa using fun h => hij h.symm)
        simpa using this
      rw [pydiv, if_neg hden]
      show lagInner t xi i (j0 + 1) l (acc * ((t - c) / (xi - c))) = _
      rw [lagInner_ok l t xi i (j0 + 1) (acc * ((t - c) / (xi - c))) hd']
      congr 1
      simp only [List.length_cons]
      rw [Finset.prod_range_succ' (fun k =>
        if j0 + k = i then (1 : ℚ)
        else (t - (c :: l).getD k 0) / (xi - (c :: l).getD k 0)) l.length]
      rw [Finset.prod_congr rfl (fun k _ => hshift k)]
      simp only [Nat.add_zero, List.getD_cons_zero]
      rw [if_neg (fun h => hij h.symm)]
      ring
    · rw [if_neg hij]
      have hij' : i = j0 := not_ne_iff.mp hij
      rw [lagInner_ok l t xi i (j0 + 1) acc hd']
      congr 1
      simp only [List.length_cons]
      rw [Finset.prod_range_succ' (fun k =>
        if j0 + k = i then (1 : ℚ)
        else (t - (c :: l).getD k 0) / (xi - (c :: l).getD k 0)) l.length]
      rw [Finset.prod_congr rfl (fun k _ => hshift k)]
      simp only [Nat.add_zero, List.getD_cons_zero]
      rw [if_pos hij'.symm]
      ring

theorem lagInner_error : ∀ (l : List ℚ) (t xi : ℚ) (i j0 : ℕ) (acc : ℚ),
    (∃ k, k < l.length ∧ j0 + k ≠ i ∧ xi - l.getD k 0 = 0) →
    lagInner t xi i j0 l acc = .error "ZeroDivisionError"
  | [], t, xi, i, j0, acc, hw => by
    obtain ⟨k, hk, -, -⟩ := hw
    simp at hk
  | c :: l, t, xi, i, j0, acc, hw => by
    rw [lagInner]
    by_cases hij : i ≠ j0
    · rw [if_pos hij]
      by_cases hden : xi - c = 0
      · rw [pydiv, if_pos hden]
      · rw [pydiv, if_neg hden]
        refine lagInner_error l t xi i (j0 + 1) _ ?_
        obtain ⟨k, hk, hne, hz⟩ := hw
        match k with
        | 0 =>
          rw [List.getD_cons_zero] at hz
          exact absurd hz hden
        | k' + 1 =>
          rw [List.getD_cons_succ] at hz
          exact ⟨k', by simp at hk; omega, by omega, hz⟩
    · rw [if_neg hij]
      have hij' : i = j0 := not_ne_iff.mp hij
      refine lagInner_error l t xi i (j0 + 1) _ ?_
      obtain ⟨k, hk, hne, hz⟩ := hw
      match k with
      | 0 => exact absurd (by omega : j0 + 0 = i) hne
      | k' + 1 =>
        rw [List.getD_cons_succ] at hz
        exact ⟨k', by simp at hk; omega, by omega, hz⟩

theorem lagOuter_ok : ∀ (ps : List (ℚ × ℚ)) (t : ℚ) (xs : List ℚ) (i0 : ℕ) (acc : ℚ),
    (∀ p, p < ps.length → ∀ k, k < xs.length → k ≠ i0 + p →
      (ps.getD p (0, 0)).1 - xs.getD k 0 ≠ 0) →
    lagOuter t xs i0 ps acc = .ok (acc + ∑ p in Finset.range ps.length,
      (ps.getD p (0, 0)).2 * ∏ k in Finset.range xs.length,
        if k = i0 + p then 1 else (t - xs.getD k 0) / ((ps.getD p (0, 0)).1 - xs.getD k 0))
  | [], t, xs, i0, acc, hd => by simp [lagOuter]
  | pr :: ps, t, xs, i0, acc, hd => by
    have hd0 : ∀ k, k < xs.length → 0 + k ≠ i0 → pr.1 - xs.getD k 0 ≠ 0 := by
      intro k hk hne
      have := hd 0 (by simp) k hk (by omega)
      simpa using this
    have hd' : ∀ p, p < ps.length → ∀ k, k < xs.length → k ≠ (i0 + 1) + p →
        (ps.getD p (0, 0)).1 - xs.getD k 0 ≠ 0 := by
      intro p hp k hk hne
      have := hd (p + 1) (by simp; omega) k hk (by omega)
      simpa [List.getD_cons_succ] using this
    rw [lagOuter, lagInner_ok xs t pr.1 i0 0 pr.2 hd0]
    show lagOuter t xs (i0 + 1) ps (acc + pr.2 * ∏ k in Finset.range xs.length,
      if 0 + k = i0 then (1 : ℚ) else (t - xs.getD k 0) / (pr.1 - xs.getD k 0)) = _
    rw [lagOuter_ok ps t xs (i0 + 1) _ hd']
    congr 1
    simp only [List.length_cons]
    rw [Finset.sum_range_succ' (fun p =>
      ((pr :: ps).getD p (0, 0)).2 * ∏ k in Finset.range xs.length,
        if k = i0 + p then (1 : ℚ)
        else (t - xs.getD k 0) / (((pr :: ps).getD p (0, 0)).1 - xs.getD k 0)) ps.length]
    simp only [List.getD_cons_succ, List.getD_cons_zero, Nat.add_zero]
    have hshift : ∀ p : ℕ, ((ps.getD p (0, 0)).2 * ∏ k in Finset.range xs.length,
        if k = i0 + (p + 1) then (1 : ℚ)
        else (t - xs.getD k 0) / ((ps.getD p (0, 0)).1 - xs.getD k 0)) =
        ((ps.getD p (0, 0)).2 * ∏ k in Finset.range xs.length,
        if k = (i0 + 1) + p then (1 : ℚ)
        else (t - xs.getD k 0) / ((ps.getD p (0, 0)).1 - xs.getD k 0)) := by
      intro p
      exact congrArg (fun z => (ps.getD p (0, 0)).2 * z)
        (Finset.prod_congr rfl (fun k _ => if_congr (by omega) rfl rfl))
    rw [Finset.sum_congr rfl (fun p _ => hshift p)]
    have hinner : (∏ k in Finset.range xs.length,
        if k = i0 then (1 : ℚ) else (t - xs.getD k 0) / (pr.1 - xs.getD k 0)) =
        (∏ k in Finset.range xs.length,
        if 0 + k = i0 then (1 : ℚ) else (t - xs.getD k 0) / (pr.1 - xs.getD k 0)) := by
      exact Finset.prod_congr rfl (fun k _ => if_congr (by omega) rfl rfl)
    rw [← hinner]
    ring

/-! ## Lemmas: the Lagrange sum is the interpolating polynomial -/

theorem eval_interpolate_range (n : ℕ) (v r : ℕ → ℚ) (t : ℚ) :
    Polynomial.eval t ((Lagrange.interpolate (Finset.range n) v) r) =
      ∑ i in Finset.range n, r i * ∏ j in (Finset.range n).erase i, (v i - v j)⁻¹ * (t - v j) := by
  rw [Lagrange.interpolate_apply, Polynomial.eval_finset_sum]
  refine Finset.sum_congr rfl (fun i hi => ?_)
  rw [Polynomial.eval_mul, Polynomial.eval_C, Lagrange.basis, Polynomial.eval_prod]
  refine congrArg (fun z => r i * z) (Finset.prod_congr rfl (fun j hj => ?_))
  rw [Lagrange.basisDivisor, Polynomial.eval_mul, Polynomial.eval_C, Polynomial.eval_sub,
    Polynomial.eval_X, Polynomial.eval_C]

theorem prod_ite_one_erase {n i : ℕ} (hi : i ∈ Finset.range n) (g : ℕ → ℚ) :
    (∏ k in Finset.range n, if k = i then (1 : ℚ) else g k) =
      ∏ k in (Finset.range n).erase i, g k := by
  rw [← Finset.mul_prod_erase (Finset.range n) (fun k => if k = i then (1 : ℚ) else g k) hi]
  rw [if_pos rfl, one_mul]
  exact Finset.prod_congr rfl (fun j hj => if_neg (Finset.mem_erase.mp hj).1)

theorem zip_getD_eq {xs ys : List ℚ} {p : ℕ} (hp : p < (xs.zip ys).length) :
    (xs.zip ys).getD p (0, 0) = (xs.getD p 0, ys.getD p 0) := by
  have hp1 : p < xs.length := by
    rw [List.length_zip] at hp
    omega
  have hp2 : p < ys.length := by
    rw [List.length_zip] at hp
    omega
  rw [List.getD_eq_getElem _ _ hp, List.getElem_zip,
    List.getD_eq_getElem _ _ hp1, List.getD_eq_getElem _ _ hp2]

theorem lagOuter_eval (t : ℚ) (xs ys : List ℚ) (hlen : ys.length = xs.length)
    (hnd : xs.Nodup) :
    lagOuter t xs 0 (xs.zip ys) 0 = .ok (Polynomial.eval t
      ((Lagrange.interpolate (Finset.range xs.length) (fun k => xs.getD k 0))
        (fun k => ys.getD k 0))) := by
  have hzlen : (xs.zip ys).length = xs.length := by
    rw [List.length_zip, hlen]
    omega
  have hd : ∀ p, p < (xs.zip ys).length → ∀ k, k < xs.length → k ≠ 0 + p →
      ((xs.zip ys).getD p (0, 0)).1 - xs.getD k 0 ≠ 0 := by
    intro p hp k hk hne
    rw [zip_getD_eq hp]
    have hp' : p < xs.length := hzlen ▸ hp
    rw [List.getD_eq_getElem _ _ hp', List.getD_eq_getElem _ _ hk]
    refine sub_ne_zero.mpr (fun he => ?_)
    have hpk : p = k := hnd.getElem_inj_iff.mp he
    exact hne (by omega)
  rw [lagOuter_ok (xs.zip ys) t xs 0 0 hd]
  congr 1
  rw [eval_interpolate_range, hzlen, zero_add]
  refine Finset.sum_congr rfl (fun p hp => ?_)
  have hp' : p < xs.length := Finset.mem_range.mp hp
  have hpz : p < (xs.zip ys).length := by omega
  rw [zip_getD_eq hpz]
  simp only [Nat.zero_add]
  congr 1
  rw [prod_ite_one_erase (Finset.mem_range.mpr hp')
    (fun k => (t - xs.getD k 0) / (xs.getD p 0 - xs.getD k 0))]
  exact Finset.prod_congr rfl (fun k hk => div_eq_inv_mul _ _)

/-! ## Lemmas: the polynomial strategy on its window -/

theorem y_points_length_eq (events : List (ℚ × ℚ)) (idx : ℕ) :
    (y_points events idx).length = (x_points events idx).length := by
  simp [x_points, y_points]

theorem x_points_nodup {events : List (ℚ × ℚ)} (idx : ℕ)
    (hs : events.Pairwise (fun a b => a.1 < b.1)) : (x_points events idx).Nodup := by
  have h1 : (events.map Prod.fst).Pairwise (· < ·) := List.pairwise_map.mpr hs
  have h2 : (x_points events idx).Sublist (events.map Prod.fst) :=
    (List.take_sublist _ _).trans (List.drop_sublist _ _)
  exact (List.Pairwise.sublist h2 h1).imp ne_of_lt

theorem x_points_length {events : List (ℚ × ℚ)} {idx : ℕ}
    (hidx : idx + 1 < events.length) :
    (x_points events idx).length = min events.length (idx + 3) - (idx - 2) := by
  simp only [x_points, List.length_take, List.length_drop, List.length_map]
  omega

theorem x_points_getD {events : List (ℚ × ℚ)} {idx j : ℕ}
    (hj : j < (x_points events idx).length) :
    (x_points events idx).getD j 0 = (events.map Prod.fst).getD ((idx - 2) + j) 0 := by
  simp only [x_points] at hj ⊢
  have hb : idx - 2 + j < (events.map Prod.fst).length := by
    simp only [List.length_take, List.length_drop, List.length_map] at hj ⊢
    omega
  rw [List.getD_eq_getElem _ _ hj, List.getElem_take, List.getElem_drop,
    List.getD_eq_getElem _ _ hb]

theorem y_points_getD {events : List (ℚ × ℚ)} {idx j : ℕ}
    (hj : j < (y_points events idx).length) :
    (y_points events idx).getD j 0 = (events.map Prod.snd).getD ((idx - 2) + j) 0 := by
  simp only [y_points] at hj ⊢
  have hb : idx - 2 + j < (events.map Prod.snd).length := by
    simp only [List.length_take, List.length_drop, List.length_map] at hj ⊢
    omega
  rw [List.getD_eq_getElem _ _ hj, List.getElem_take, List.getElem_drop,
    List.getD_eq_getElem _ _ hb]

theorem polynomial_fit_interpolate_window {events : List (ℚ × ℚ)} {q : ℚ} {idx : ℕ}
    (hs : events.Pairwise (fun a b => a.1 < b.1)) (hne : events ≠ [])
    (hlen : 2 ≤ events.length)
    (hc1 : ¬ q < (events.head hne).1) (hc2 : ¬ q > (events.getLast hne).1)
    (hidx : find_interval q (events.map Prod.fst) = some idx) :
    polynomial_fit_interpolate q events = .ok (some (Polynomial.eval q
      ((Lagrange.interpolate (Finset.range (x_points events idx).length)
        (fun k => (x_points events idx).getD k 0))
        (fun k => (y_points events idx).getD k 0)))) := by
  match events with
  | e0 :: rest =>
    simp only [List.head_cons] at hc1
    rw [polynomial_fit_interpolate]
    rw [if_neg (not_lt.mpr hlen), if_neg hc1, if_neg hc2, hidx]
    show (match lagOuter q (x_points (e0 :: rest) idx) 0
        ((x_points (e0 :: rest) idx).zip (y_points (e0 :: rest) idx)) 0 with
      | Except.error e => (Except.error e : Except String (Option ℚ))
      | Except.ok r => Except.ok (some r)) = _
    rw [lagOuter_eval q (x_points (e0 :: rest) idx) (y_points (e0 :: rest) idx)
      (y_points_length_eq (e0 :: rest) idx) (x_points_nodup idx hs)]

theorem polynomial_fit_interpolate_node {events : List (ℚ × ℚ)}
    (hs : events.Pairwise (fun a b => a.1 < b.1)) (hlen : 2 ≤ events.length)
    {k : ℕ} (hk : k < events.length) :
    polynomial_fit_interpolate ((events.map Prod.fst).getD k 0) events =
      .ok (some ((events.map Prod.snd).getD k 0)) := by
  have hne : events ≠ [] := by
    intro h
    rw [h] at hlen
    simp at hlen
  have hmap : (events.map Prod.fst).Pairwise (· < ·) := List.pairwise_map.mpr hs
  have hkm : k < (events.map Prod.fst).length := by
    rw [List.length_map]
    exact hk
  have hq0 : (events.map Prod.fst).getD 0 0 ≤ (events.map Prod.fst).getD k 0 := by
    rcases Nat.eq_zero_or_pos k with h0 | hpos
    · rw [h0]
    · rw [List.getD_eq_getElem _ _ (by rw [List.length_map]; omega),
        List.getD_eq_getElem _ _ hkm]
      exact le_of_lt ((List.pairwise_iff_getElem.mp hmap) 0 k _ hkm hpos)
  have hlm : (events.map Prod.fst).length = events.length := by simp
  have hqL : (events.map Prod.fst).getD k 0 ≤
      (events.map Prod.fst).getD (events.length - 1) 0 := by
    rcases lt_or_eq_of_le (Nat.le_sub_one_of_lt hk) with hlt | heq
    · rw [List.getD_eq_getElem _ _ hkm,
        List.getD_eq_getElem _ _ (by rw [hlm]; omega)]
      exact le_of_lt ((List.pairwise_iff_getElem.mp hmap) k _ hkm (by rw [hlm]; omega) hlt)
    · rw [heq]
  have hc1 : ¬ (events.map Prod.fst).getD k 0 < (events.head hne).1 := by
    refine not_lt.mpr ?_
    have hh : (events.head hne).1 = (events.map Prod.fst).getD 0 0 := by
      rw [List.getD_eq_getElem _ _ (by rw [hlm]; omega), List.getElem_map,
        List.head_eq_getElem]
    rw [hh]
    exact hq0
  have hc2 : ¬ (events.map Prod.fst).getD k 0 > (events.getLast hne).1 := by
    refine not_lt.mpr ?_
    have hh : (events.getLast hne).1 =
        (events.map Prod.fst).getD (events.length - 1) 0 := by
      rw [List.getD_eq_getElem _ _ (by rw [hlm]; omega), List.getElem_map,
        List.getLast_eq_getElem]
    rw [hh]
    exact hqL
  have hidx : find_interval ((events.map Prod.fst).getD k 0) (events.map Prod.fst) =
      some (k - 1) :=
    find_interval_node (events.map Prod.fst) hmap k hkm (by rw [List.length_map]; exact hlen)
  rw [polynomial_fit_interpolate_window hs hne hlen hc1 hc2 hidx]
  have hidx1 : (k - 1) + 1 < events.length := by omega
  have hwlen : (x_points events (k - 1)).length =
      min events.length ((k - 1) + 3) - ((k - 1) - 2) := x_points_length hidx1
  have hjw : k - ((k - 1) - 2) < (x_points events (k - 1)).length := by
    rw [hwlen]
    omega
  have hnode : (x_points events (k - 1)).getD (k - ((k - 1) - 2)) 0 =
      (events.map Prod.fst).getD k 0 := by
    rw [x_points_getD hjw]
    congr 1
    omega
  have hval : (y_points events (k - 1)).getD (k - ((k - 1) - 2)) 0 =
      (events.map Prod.snd).getD k 0 := by
    rw [y_points_getD (by rw [y_points_length_eq]; exact hjw)]
    congr 1
    omega
  have hinj : Set.InjOn (fun j => (x_points events (k - 1)).getD j 0)
      ↑(Finset.range (x_points events (k - 1)).length) := by
    intro a ha b hb he
    rw [Finset.mem_coe, Finset.mem_range] at ha hb
    simp only at he
    rw [List.getD_eq_getElem _ _ ha, List.getD_eq_getElem _ _ hb] at he
    exact (x_points_nodup (k - 1) hs).getElem_inj_iff.mp he
  have hev := Lagrange.eval_interpolate_at_node
    (fun j => (y_points events (k - 1)).getD j 0) hinj (Finset.mem_range.mpr hjw)
  simp only at hev
  rw [← hnode, hev, hval]

/-! ## Lemmas: the three-day series builder -/

theorem parse_tides_mem_bounds {tl : List (String × String × ℚ)} {off m v : ℚ}
    (hmem : (m, v) ∈ parse_tides tl off) : off ≤ m ∧ m ≤ off + 1439 := by
  rw [parse_tides, List.mem_filterMap] at hmem
  obtain ⟨e, he, hfe⟩ := hmem
  rcases h : time_str_to_minutes e.2.1 with _ | t
  · rw [h] at hfe
    simp at hfe
  · rw [h] at hfe
    simp only [Option.some.injEq, Prod.mk.injEq] at hfe
    obtain ⟨h1, -⟩ := hfe
    have hle := time_str_to_minutes_le h
    have ht0 : (0 : ℚ) ≤ (t : ℚ) := by positivity
    have ht1 : (t : ℚ) ≤ 1439 := by exact_mod_cast hle
    constructor <;> [linarith [h1 ▸ le_refl m]; linarith [h1 ▸ le_refl m]]

theorem parse_tides_length_le (tl : List (String × String × ℚ)) (off : ℚ) :
    (parse_tides tl off).length ≤ tl.length :=
  List.length_filterMap_le _ _

theorem pythonLe_trans : ∀ (a b c : ℚ × ℚ),
    pythonLe a b = true → pythonLe b c = true → pythonLe a c = true := by
  intro a b c hab hbc
  simp only [pythonLe, decide_eq_true_eq] at hab hbc ⊢
  rcases hab with h1 | ⟨h1, h1v⟩ <;> rcases hbc with h2 | ⟨h2, h2v⟩
  · exact Or.inl (lt_trans h1 h2)
  · exact Or.inl (h2 ▸ h1)
  · exact Or.inl (h1 ▸ h2)
  · exact Or.inr ⟨h1.trans h2, le_trans h1v h2v⟩

theorem pythonLe_total : ∀ (a b : ℚ × ℚ), (pythonLe a b || pythonLe b a) = true := by
  intro a b
  simp only [pythonLe, Bool.or_eq_true, decide_eq_true_eq]
  rcases lt_trichotomy a.1 b.1 with h | h | h
  · exact Or.inl (Or.inl h)
  · rcases le_total a.2 b.2 with hv | hv
    · exact Or.inl (Or.inr ⟨h, hv⟩)
    · exact Or.inr (Or.inr ⟨h.symm, hv⟩)
  · exact Or.inr (Or.inl h)

theorem build_tide_series_sorted (prior today next : List (String × String × ℚ)) :
    (build_tide_series prior today next).Pairwise (fun a b => pythonLe a b = true) :=
  List.sorted_mergeSort pythonLe_trans pythonLe_total _

theorem build_tide_series_length_le (prior today next : List (String × String × ℚ)) :
    (build_tide_series prior today next).length ≤
      prior.length + today.length + next.length := by
  rw [build_tide_series, List.length_mergeSort]
  have h1 := parse_tides_length_le prior (-(24 * 60))
  have h2 := parse_tides_length_le today 0
  have h3 := parse_tides_length_le next (24 * 60)
  simp only [List.length_append]
  omega

theorem build_tide_series_strict (prior today next : List (String × String × ℚ))
    (hp : ((parse_tides prior (-(24 * 60))).map Prod.fst).Nodup)
    (ht : ((parse_tides today 0).map Prod.fst).Nodup)
    (hn : ((parse_tides next (24 * 60)).map Prod.fst).Nodup) :
    ((build_tide_series prior today next).map Prod.fst).Pairwise (· < ·) := by
  have hPm : ∀ m ∈ (parse_tides prior (-(24 * 60))).map Prod.fst, m ≤ -1 := by
    intro m hm
    obtain ⟨⟨m', v⟩, hmem, rfl⟩ := List.mem_map.mp hm
    have := (parse_tides_mem_bounds hmem).2
    linarith
  have hTm : ∀ m ∈ (parse_tides today 0).map Prod.fst, 0 ≤ m ∧ m ≤ 1439 := by
    intro m hm
    obtain ⟨⟨m', v⟩, hmem, rfl⟩ := List.mem_map.mp hm
    have h1 := (parse_tides_mem_bounds hmem).1
    have h2 := (parse_tides_mem_bounds hmem).2
    constructor <;> linarith
  have hNm : ∀ m ∈ (parse_tides next (24 * 60)).map Prod.fst, 1440 ≤ m := by
    intro m hm
    obtain ⟨⟨m', v⟩, hmem, rfl⟩ := List.mem_map.mp hm
    have := (parse_tides_mem_bounds hmem).1
    linarith
  have hnodup : (((parse_tides prior (-(24 * 60)) ++ parse_tides today 0 ++
      parse_tides next (24 * 60))).map Prod.fst).Nodup := by
    rw [List.map_append, List.map_append]
    rw [List.nodup_append, List.nodup_append]
    refine ⟨⟨hp, ht, ?_⟩, hn, ?_⟩
    · intro a haP haT
      have h1 := hPm a haP
      have h2 := (hTm a haT).1
      linarith
    · intro a haPT haN
      have h2 := hNm a haN
      rcases List.mem_append.mp haPT with haP | haT
      · have h1 := hPm a haP
        linarith
      · have h1 := (hTm a haT).2
        linarith
  have hperm : (build_tide_series prior today next).Perm
      (parse_tides prior (-(24 * 60)) ++ parse_tides today 0 ++
        parse_tides next (24 * 60)) :=
    List.mergeSort_perm _ _
  have hnd2 : ((build_tide_series prior today next).map Prod.fst).Nodup :=
    ((hperm.map Prod.fst).nodup_iff).mpr hnodup
  have hsorted := build_tide_series_sorted prior today next
  rw [List.pairwise_map]
  have hne : (build_tide_series prior today next).Pairwise (fun a b => a.1 ≠ b.1) :=
    List.pairwise_map.mp hnd2
  refine (hsorted.and hne).imp ?_
  intro a b hab
  obtain ⟨hle, hneq⟩ := hab
  simp only [pythonLe, decide_eq_true_eq] at hle
  rcases hle with h | ⟨h, -⟩
  · exact h
  · exact absurd h hneq

/-! ## Lemmas: the curve sampler -/

theorem sampleMinutes_pairwise {step : ℕ} (hstep : 0 < step) :
    (sampleMinutes step).Pairwise (· < ·) :=
  List.pairwise_lt_range' 0 (24 * 60 / step + 1) step hstep

theorem sampleMinutes_le {step t : ℕ} (hmem : t ∈ sampleMinutes step) : t ≤ 1440 := by
  rw [sampleMinutes, List.mem_range'] at hmem
  obtain ⟨i, hi, rfl⟩ := hmem
  have h1 : i ≤ 24 * 60 / step := by omega
  have h2 : step * i ≤ step * (24 * 60 / step) := Nat.mul_le_mul_left step h1
  have h3 : step * (24 * 60 / step) ≤ 24 * 60 := by
    rw [Nat.mul_comm]
    exact Nat.div_mul_le_self (24 * 60) step
  omega

theorem sample_points_mem {events : List (ℚ × ℚ)} {step t : ℕ} {v : ℝ} :
    (t, v) ∈ sample_points events step ↔
      t ∈ sampleMinutes step ∧ half_sine_interpolate (t : ℚ) events = some v := by
  rw [sample_points, List.mem_filterMap]
  constructor
  · rintro ⟨a, ha, hfa⟩
    rcases h : half_sine_interpolate (a : ℚ) events with _ | w
    · rw [h] at hfa
      simp at hfa
    · rw [h] at hfa
      simp only [Option.some.injEq, Prod.mk.injEq] at hfa
      obtain ⟨rfl, rfl⟩ := hfa
      exact ⟨ha, h⟩
  · rintro ⟨hmem, hint⟩
    exact ⟨t, hmem, by rw [hint]⟩

theorem sample_points_fst_filter (events : List (ℚ × ℚ)) (step : ℕ) :
    (sample_points events step).map Prod.fst =
      (sampleMinutes step).filter (fun (t : ℕ) => (half_sine_interpolate (t : ℚ) events).isSome) := by
  rw [sample_points]
  induction sampleMinutes step with
  | nil => simp
  | cons a l ih =>
    rw [List.filterMap_cons, List.filter_cons]
    rcases h : half_sine_interpolate (a : ℚ) events with _ | w
    · simp only [h, Option.isSome_none]
      simpa using ih
    · simp only [h, Option.isSome_some, List.map_cons, if_pos]
      exact congrArg (a :: ·) ih

theorem sample_points_empty (step : ℕ) : sample_points [] step = [] := by
  rw [sample_points]
  refine List.filterMap_eq_nil_iff.mpr (fun a _ => ?_)
  rfl

theorem sample_points_fst_pairwise (events : List (ℚ × ℚ)) {step : ℕ} (hstep : 0 < step) :
    ((sample_points events step).map Prod.fst).Pairwise (· < ·) := by
  rw [sample_points_fst_filter]
  exact List.Pairwise.filter _ (sampleMinutes_pairwise hstep)

/-! ## Claim theorems -/

/-- C1: for every series with at least 2 events whose minutes are strictly
increasing and every strategy (linear, half-sine, polynomial), a query at or
before the first event's minute returns the first event's value, and a query
at or after the last event's minute returns the last event's value (flat
extrapolation on both sides). -/
theorem C1_flat_extrapolation {e0 : ℚ × ℚ} {rest : List (ℚ × ℚ)} {q : ℚ}
    (hs : (e0 :: rest).Pairwise (fun a b => a.1 < b.1))
    (hlen : 2 ≤ (e0 :: rest).length) :
    (q ≤ e0.1 →
      linear_interpolate q (e0 :: rest) = some e0.2 ∧
      half_sine_interpolate q (e0 :: rest) = some (e0.2 : ℝ) ∧
      polynomial_fit_interpolate q (e0 :: rest) = .ok (some e0.2)) ∧
    (((e0 :: rest).getLast (List.cons_ne_nil e0 rest)).1 ≤ q →
      linear_interpolate q (e0 :: rest) =
        some (((e0 :: rest).getLast (List.cons_ne_nil e0 rest)).2) ∧
      half_sine_interpolate q (e0 :: rest) =
        some ((((e0 :: rest).getLast (List.cons_ne_nil e0 rest)).2 : ℝ)) ∧
      polynomial_fit_interpolate q (e0 :: rest) =
        .ok (some (((e0 :: rest).getLast (List.cons_ne_nil e0 rest)).2))) := by
  match rest with
  | [] => simp at hlen
  | e1 :: rest' =>
    have hne : (e0 :: e1 :: rest') ≠ [] := List.cons_ne_nil e0 (e1 :: rest')
    have hlast1 : ((e0 :: e1 :: rest').map Prod.fst).getD ((e0 :: e1 :: rest').length - 1) 0 =
        ((e0 :: e1 :: rest').getLast hne).1 := by
      rw [List.getD_eq_getElem _ _ (by simp), List.getElem_map, List.getLast_eq_getElem]
    have hlast2 : ((e0 :: e1 :: rest').map Prod.snd).getD ((e0 :: e1 :: rest').length - 1) 0 =
        ((e0 :: e1 :: rest').getLast hne).2 := by
      rw [List.getD_eq_getElem _ _ (by simp), List.getElem_map, List.getLast_eq_getElem]
    have hm0 : ((e0.1, e0.2) : ℚ × ℚ) ∈ e0 :: e1 :: rest' := by
      rw [Prod.mk.eta]
      exact List.mem_cons_self e0 (e1 :: rest')
    have hmL : ((((e0 :: e1 :: rest').getLast hne).1,
        ((e0 :: e1 :: rest').getLast hne).2) : ℚ × ℚ) ∈ e0 :: e1 :: rest' := by
      rw [Prod.mk.eta]
      exact List.getLast_mem hne
    constructor
    · intro hq
      rcases lt_or_eq_of_le hq with hlt | heq
      · refine ⟨?_, ?_, ?_⟩
        · simp only [linear_interpolate]
          rw [if_pos hlt]
        · simp only [half_sine_interpolate]
          rw [if_pos hlt]
        · simp only [polynomial_fit_interpolate]
          rw [if_neg (by simp), if_pos hlt]
      · subst heq
        refine ⟨linear_interpolate_node hs hm0 hlen,
          half_sine_interpolate_node hs hm0 hlen, ?_⟩
        have hp := polynomial_fit_interpolate_node hs hlen (k := 0) (by simp)
        simpa using hp
    · intro hq
      rcases lt_or_eq_of_le hq with hlt | heq
      · have hfirst : e0.1 ≤ ((e0 :: e1 :: rest').getLast hne).1 :=
          fst_le_getLast_of_mem hs hne e0.1 e0.2 hm0
        refine ⟨?_, ?_, ?_⟩
        · simp only [linear_interpolate]
          rw [if_neg (not_lt.mpr (le_trans hfirst (le_of_lt hlt))), if_pos hlt]
        · simp only [half_sine_interpolate]
          rw [if_neg (not_lt.mpr (le_trans hfirst (le_of_lt hlt))), if_pos hlt]
        · simp only [polynomial_fit_interpolate]
          rw [if_neg (by simp), if_neg (not_lt.mpr (le_trans hfirst (le_of_lt hlt))),
            if_pos hlt]
      · subst heq
        refine ⟨linear_interpolate_node hs hmL hlen,
          half_sine_interpolate_node hs hmL hlen, ?_⟩
        have hp := polynomial_fit_interpolate_node hs hlen
          (k := (e0 :: e1 :: rest').length - 1) (by simp)
        rw [hlast1, hlast2] at hp
        exact hp

/-- C1 witness: the series `[(0, 1), (10, 3)]` queried at `-5` (before the
first event) yields the first value `1` under all three strategies. -/
theorem C1_flat_extrapolation_witness :
    linear_interpolate (-5) [(0, 1), (10, 3)] = some 1 ∧
    half_sine_interpolate (-5) [(0, 1), (10, 3)] = some ((1 : ℚ) : ℝ) ∧
    polynomial_fit_interpolate (-5) [(0, 1), (10, 3)] = .ok (some 1) :=
  (@C1_flat_extrapolation (0, 1) [(10, 3)] (-5)
    (by norm_num [List.pairwise_cons]) (by norm_num)).1 (by norm_num)

/-- C2: for every bracketing pair `(t1,h1), (t2,h2)` adjacent inside a sorted
series (so `t1 < t2`), half-sine interpolation returns exactly `h1` at query
`t1`, exactly `h2` at query `t2`, and exactly the midpoint `(h1+h2)/2` at the
bracket midpoint; in particular `[(480,5), (840,1)]` at minute 660 yields 3. -/
theorem C2_half_sine_bracket_exact {l1 l2 : List (ℚ × ℚ)} {t1 h1 t2 h2 : ℚ}
    (hs : (l1 ++ (t1, h1) :: (t2, h2) :: l2).Pairwise (fun a b => a.1 < b.1)) :
    half_sine_interpolate t1 (l1 ++ (t1, h1) :: (t2, h2) :: l2) = some (h1 : ℝ) ∧
    half_sine_interpolate t2 (l1 ++ (t1, h1) :: (t2, h2) :: l2) = some (h2 : ℝ) ∧
    half_sine_interpolate ((t1 + t2) / 2) (l1 ++ (t1, h1) :: (t2, h2) :: l2) =
      some (((h1 + h2) / 2 : ℚ) : ℝ) ∧
    half_sine_interpolate 660 [(480, 5), (840, 1)] = some ((3 : ℚ) : ℝ) := by
  have hlen : 2 ≤ (l1 ++ (t1, h1) :: (t2, h2) :: l2).length := by
    simp only [List.length_append, List.length_cons]
    omega
  have hsub : ((t1, h1) :: (t2, h2) :: ([] : List (ℚ × ℚ))).Sublist
      (l1 ++ (t1, h1) :: (t2, h2) :: l2) := by
    refine List.Sublist.trans ?_ (List.sublist_append_right l1 _)
    exact List.Sublist.cons₂ _ (List.Sublist.cons₂ _ (List.nil_sublist l2))
  have ht12 : t1 < t2 :=
    (List.pairwise_cons.mp (List.Pairwise.sublist hsub hs)).1 (t2, h2)
      (List.mem_cons_self _ _)
  have hmid1 : t1 < (t1 + t2) / 2 := by linarith
  have hmid2 : (t1 + t2) / 2 < t2 := by linarith
  have hb := half_sine_interpolate_bracket hs hmid1 hmid2
  rw [show ((t1 + t2) / 2 - t1) / (t2 - t1) = 1 / 2 by
    rw [div_eq_div_iff (by linarith) (by norm_num)]; ring] at hb
  rw [show Real.pi * ((1 / 2 : ℚ) : ℝ) - Real.pi / 2 = 0 by push_cast; ring,
    Real.sin_zero, mul_zero, add_zero,
    show (0.5 * (h1 + h2) : ℚ) = (h1 + h2) / 2 by ring] at hb
  have hcon := @half_sine_interpolate_bracket [] [] 480 5 840 1 660
    (by norm_num [List.pairwise_cons]) (by norm_num) (by norm_num)
  rw [show ((660 : ℚ) - 480) / (840 - 480) = 1 / 2 by norm_num] at hcon
  rw [show Real.pi * ((1 / 2 : ℚ) : ℝ) - Real.pi / 2 = 0 by push_cast; ring,
    Real.sin_zero, mul_zero, add_zero,
    show (0.5 * ((5 : ℚ) + 1) : ℚ) = 3 by norm_num] at hcon
  exact ⟨half_sine_interpolate_node hs mem_bracket_left hlen,
    half_sine_interpolate_node hs mem_bracket_right hlen, hb, by simpa using hcon⟩

/-- C2 witness: the general theorem instantiated on the two-event series
`[(480,5), (840,1)]` gives exactly `3` at the bracket midpoint 660. -/
theorem C2_half_sine_bracket_exact_witness :
    half_sine_interpolate 660 [(480, 5), (840, 1)] = some ((3 : ℚ) : ℝ) :=
  (@C2_half_sine_bracket_exact [] [] 480 5 840 1
    (by norm_num [List.pairwise_cons])).2.2.2

/-- C4 counterexample: the claim says the linear strategy returns the single
event's value for every query minute, but at the event's own minute the
bracket loop has no pair and falls through to `None`. -/
theorem C4_counterexample : linear_interpolate 0 [(0, 2)] = none := by
  norm_num [linear_interpolate, linearLoop, List.getLast]

/-- C4 (amended): on a single-event series `[(t0, v0)]`, half-sine and
polynomial interpolation return undefined; linear interpolation returns the
event's value at every query minute except exactly `t0`, where the bracket
loop finds no pair and returns undefined as well. -/
theorem C4_single_point (t0 v0 q : ℚ) :
    half_sine_interpolate q [(t0, v0)] = none ∧
    polynomial_fit_interpolate q [(t0, v0)] = .ok none ∧
    (q ≠ t0 → linear_interpolate q [(t0, v0)] = some v0) ∧
    linear_interpolate t0 [(t0, v0)] = none := by
  refine ⟨rfl, by simp [polynomial_fit_interpolate], ?_, ?_⟩
  · intro hq
    simp only [linear_interpolate, List.getLast_singleton]
    rcases lt_or_gt_of_ne hq with h | h
    · rw [if_pos h]
    · rw [if_neg (not_lt.mpr (le_of_lt h)), if_pos h]
  · simp only [linear_interpolate, List.getLast_singleton]
    rw [if_neg (lt_irrefl t0), if_neg (lt_irrefl t0)]
    rfl

/-- C4 witness: on `[(0, 2)]`, half-sine and polynomial are undefined, linear
returns `2` away from the event and undefined exactly at it. -/
theorem C4_single_point_witness :
    half_sine_interpolate 5 [(0, 2)] = none ∧
    polynomial_fit_interpolate 5 [(0, 2)] = .ok none ∧
    linear_interpolate 5 [(0, 2)] = some 2 ∧
    linear_interpolate 0 [(0, 2)] = none :=
  ⟨(C4_single_point 0 2 5).1, (C4_single_point 0 2 5).2.1,
    (C4_single_point 0 2 5).2.2.1 (by norm_num), (C4_single_point 0 2 5).2.2.2⟩

/-- C9 counterexample: with equal boundary values `v1 = v2 = 1`, the combined
series `[(-10,1), (10,1)]` interpolated at minute 0 yields `1` itself, which
is not strictly between `v1` and `v2` — the claim fails as stated for equal
values. -/
theorem C9_counterexample :
    half_sine_interpolate 0 [(-10, 1), (10, 1)] = some ((1 : ℚ) : ℝ) ∧
    linear_interpolate 0 [(-10, 1), (10, 1)] = some 1 ∧
    ¬ (min (1 : ℚ) 1 < 1 ∧ 1 < max (1 : ℚ) 1) := by
  refine ⟨?_, ?_, by simp⟩
  · have hb := @half_sine_interpolate_bracket [] [] (-10) 1 10 1 0
      (by norm_num [List.pairwise_cons]) (by norm_num) (by norm_num)
    rw [show (0.5 * ((1 : ℚ) - 1) : ℚ) = 0 by norm_num,
      show (0.5 * ((1 : ℚ) + 1) : ℚ) = 1 by norm_num] at hb
    simpa using hb
  · have hb := @linear_interpolate_bracket [] [] (-10) 1 10 1 0
      (by norm_num [List.pairwise_cons]) (by norm_num) (by norm_num)
    simpa using hb

/-- C9 (amended): in a sorted combined series with adjacent events
`(-10, v1)` (yesterday 23:50, day-shifted) and `(10, v2)` (today 00:10),
interpolating at minute 0 with half-sine or linear yields exactly
`(v1+v2)/2`, which is strictly between `v1` and `v2` provided `v1 ≠ v2`
(no flat segment across midnight). -/
theorem C9_midnight_continuity {pre suf : List (ℚ × ℚ)} {v1 v2 : ℚ}
    (hs : (pre ++ (-10, v1) :: (10, v2) :: suf).Pairwise (fun a b => a.1 < b.1))
    (hv : v1 ≠ v2) :
    half_sine_interpolate 0 (pre ++ (-10, v1) :: (10, v2) :: suf) =
      some (((v1 + v2) / 2 : ℚ) : ℝ) ∧
    linear_interpolate 0 (pre ++ (-10, v1) :: (10, v2) :: suf) =
      some ((v1 + v2) / 2) ∧
    min v1 v2 < (v1 + v2) / 2 ∧ (v1 + v2) / 2 < max v1 v2 := by
  have hq1 : (-10 : ℚ) < 0 := by norm_num
  have hq2 : (0 : ℚ) < 10 := by norm_num
  have hfrac : ((0 : ℚ) - (-10)) / ((10 : ℚ) - (-10)) = 1 / 2 := by norm_num
  have hb := half_sine_interpolate_bracket hs hq1 hq2
  rw [hfrac, show Real.pi * ((1 / 2 : ℚ) : ℝ) - Real.pi / 2 = 0 by push_cast; ring,
    Real.sin_zero, mul_zero, add_zero,
    show (0.5 * (v1 + v2) : ℚ) = (v1 + v2) / 2 by ring] at hb
  have hl := linear_interpolate_bracket hs hq1 hq2
  rw [hfrac, show v1 + 1 / 2 * (v2 - v1) = (v1 + v2) / 2 by ring] at hl
  refine ⟨hb, hl, ?_, ?_⟩
  · rcases lt_or_gt_of_ne hv with h | h
    · rw [min_eq_left (le_of_lt h)]
      linarith
    · rw [min_eq_right (le_of_lt h)]
      linarith
  · rcases lt_or_gt_of_ne hv with h | h
    · rw [max_eq_right (le_of_lt h)]
      linarith
    · rw [max_eq_left (le_of_lt h)]
      linarith

/-- C9 witness: for the two-event series `[(-10, 1), (10, 3)]`, minute 0
interpolates to `2` under both strategies, strictly between 1 and 3. -/
theorem C9_midnight_continuity_witness :
    half_sine_interpolate 0 [(-10, 1), (10, 3)] = some ((((1 : ℚ) + 3) / 2 : ℚ) : ℝ) ∧
    linear_interpolate 0 [(-10, 1), (10, 3)] = some (((1 : ℚ) + 3) / 2) ∧
    min (1 : ℚ) 3 < ((1 : ℚ) + 3) / 2 ∧ ((1 : ℚ) + 3) / 2 < max (1 : ℚ) 3 :=
  @C9_midnight_continuity [] [] 1 3
    (by norm_num [List.pairwise_cons]) (by norm_num)

/-- C3 counterexample: the builder performs no deduplication, so a bucket
containing `13:30` and `1:30 PM` (the same minute written two ways) yields a
combined series with two events at minute 810 — the minutes are not strictly
increasing. -/
theorem C3_counterexample :
    (build_tide_series [] [("High", "13:30", 5), ("Low", "1:30 PM", 3)] []).map
      Prod.fst = [810, 810] ∧
    ¬ ((build_tide_series [] [("High", "13:30", 5), ("Low", "1:30 PM", 3)] []).map
      Prod.fst).Pairwise (· < ·) := by
  have h1 : time_str_to_minutes "13:30" = some 810 := by decide
  have h2 : time_str_to_minutes "1:30 PM" = some 810 := by decide
  have hc : parse_tides [] (-(24 * 60)) ++ parse_tides [("High", "13:30", 5),
      ("Low", "1:30 PM", 3)] 0 ++ parse_tides [] (24 * 60) = [(810, 5), (810, 3)] := by
    simp [parse_tides, h1, h2]
  have hmain : (build_tide_series [] [("High", "13:30", 5), ("Low", "1:30 PM", 3)] []).map
      Prod.fst = [810, 810] := by
    rw [build_tide_series, hc]
    have hperm := (List.mergeSort_perm [((810 : ℚ), (5 : ℚ)), (810, 3)] pythonLe).map Prod.fst
    have hm : (List.map Prod.fst [((810 : ℚ), (5 : ℚ)), (810, 3)]) = [810, 810] := by
      norm_num
    rw [hm] at hperm
    rw [show ([(810 : ℚ), 810]) = List.replicate 2 (810 : ℚ) from rfl] at hperm ⊢
    exact List.perm_replicate.mp hperm
  refine ⟨hmain, ?_⟩
  rw [hmain]
  intro hp
  exact absurd ((List.pairwise_cons.mp hp).1 810 (by simp)) (lt_irrefl (810 : ℚ))

/-- C3 (amended): the three-day combined tide series is sorted in Python's
tuple order, and its length is at most the sum of the three buckets' lengths;
its minutes are strictly increasing provided each bucket parses to pairwise
distinct minutes (the buckets land in the disjoint ranges `[-1440,-1]`,
`[0,1439]`, `[1440,2879]`, but the builder does not deduplicate *within* a
bucket, so that hypothesis is necessary). -/
theorem C3_build_series_invariants (prior today next : List (String × String × ℚ)) :
    (build_tide_series prior today next).Pairwise (fun a b => pythonLe a b = true) ∧
    (build_tide_series prior today next).length ≤
      prior.length + today.length + next.length ∧
    (((parse_tides prior (-(24 * 60))).map Prod.fst).Nodup →
      ((parse_tides today 0).map Prod.fst).Nodup →
      ((parse_tides next (24 * 60)).map Prod.fst).Nodup →
      ((build_tide_series prior today next).map Prod.fst).Pairwise (· < ·)) :=
  ⟨build_tide_series_sorted prior today next,
    build_tide_series_length_le prior today next,
    fun hp ht hn => build_tide_series_strict prior today next hp ht hn⟩

/-- C3 witness: a concrete today bucket with two distinct times produces a
strictly increasing combined series. -/
theorem C3_build_series_invariants_witness :
    ((build_tide_series [] [("High", "1:00", 2), ("Low", "2:00", 1)] []).map
      Prod.fst).Pairwise (· < ·) := by
  have h1 : time_str_to_minutes "1:00" = some 60 := by decide
  have h2 : time_str_to_minutes "2:00" = some 120 := by decide
  refine (C3_build_series_invariants [] [("High", "1:00", 2), ("Low", "2:00", 1)] []).2.2
    (by simp [parse_tides]) ?_ (by simp [parse_tides])
  simp [parse_tides, h1, h2]

/-! ## Helpers relating `getD` views to `head` and `getLast` -/

theorem map_fst_getD_zero {events : List (ℚ × ℚ)} (hne : events ≠ []) :
    (events.map Prod.fst).getD 0 0 = (events.head hne).1 := by
  have h0 : 0 < events.length := List.length_pos.mpr hne
  rw [List.getD_eq_getElem _ _ (by simp; omega), List.getElem_map, List.head_eq_getElem]

theorem map_fst_getD_last {events : List (ℚ × ℚ)} (hne : events ≠ []) :
    (events.map Prod.fst).getD (events.length - 1) 0 = (events.getLast hne).1 := by
  have h0 : 0 < events.length := List.length_pos.mpr hne
  rw [List.getD_eq_getElem _ _ (by simp; omega), List.getElem_map, List.getLast_eq_getElem]

theorem find_interval_isSome_getD {events : List (ℚ × ℚ)} (hlen : 2 ≤ events.length)
    {q : ℚ} (h1 : (events.map Prod.fst).getD 0 0 ≤ q)
    (h2 : q ≤ (events.map Prod.fst).getD (events.length - 1) 0) :
    ∃ i, find_interval q (events.map Prod.fst) = some i := by
  match events with
  | [] => simp at hlen
  | [e] => simp at hlen
  | e0 :: e1 :: rest' =>
    simp only [List.map_cons, List.getD_cons_zero] at h1
    have hL : ((e0 :: e1 :: rest').map Prod.fst).getD ((e0 :: e1 :: rest').length - 1) 0 =
        (e0.1 :: e1.1 :: rest'.map Prod.fst).getLast (by simp) := by
      rw [List.getLast_eq_getElem]
      rw [List.getD_eq_getElem _ _ (by simp)]
      simp only [List.map_cons, List.length_cons, List.length_map]
    rw [hL] at h2
    exact find_interval_isSome (rest'.map Prod.fst) e0.1 e1.1 q h1 h2

/-- C5: when the query minute lies inside the range of a strictly sorted
series, the polynomial strategy finds the bracketing interval `idx`, selects
the window `times[max(0, idx-2) : min(len, idx+3)]` of between 2 and 5 points
centered on the bracket (2 before, the bracket pair, 2 after, clipped at the
series ends), and returns the evaluation at the query minute of the Lagrange
interpolating polynomial through exactly those window points — a local fit on
the window, not a global fit over the whole series. -/
theorem C5_polynomial_local_window {events : List (ℚ × ℚ)} {q : ℚ}
    (hs : events.Pairwise (fun a b => a.1 < b.1)) (hne : events ≠ [])
    (hlen : 2 ≤ events.length)
    (hc1 : ¬ q < (events.head hne).1) (hc2 : ¬ q > (events.getLast hne).1) :
    ∃ idx, find_interval q (events.map Prod.fst) = some idx ∧
      idx + 1 < events.length ∧
      (events.map Prod.fst).getD idx 0 ≤ q ∧
      q ≤ (events.map Prod.fst).getD (idx + 1) 0 ∧
      2 ≤ (x_points events idx).length ∧ (x_points events idx).length ≤ 5 ∧
      x_points events idx =
        ((events.map Prod.fst).drop (idx - 2)).take
          (min events.length (idx + 3) - (idx - 2)) ∧
      y_points events idx =
        ((events.map Prod.snd).drop (idx - 2)).take
          (min events.length (idx + 3) - (idx - 2)) ∧
      polynomial_fit_interpolate q events = .ok (some (Polynomial.eval q
        ((Lagrange.interpolate (Finset.range (x_points events idx).length)
          (fun k => (x_points events idx).getD k 0))
          (fun k => (y_points events idx).getD k 0)))) := by
  obtain ⟨idx, hidx⟩ := find_interval_isSome_getD (q := q) hlen
    (by rw [map_fst_getD_zero hne]; exact not_lt.mp hc1)
    (by rw [map_fst_getD_last hne]; exact not_lt.mp hc2)
  obtain ⟨hb, hq1, hq2⟩ := find_interval_sound (events.map Prod.fst) q idx hidx
  rw [List.length_map] at hb
  refine ⟨idx, hidx, hb, hq1, hq2, ?_, ?_, rfl, rfl,
    polynomial_fit_interpolate_window hs hne hlen hc1 hc2 hidx⟩
  · rw [x_points_length hb]
    omega
  · rw [x_points_length hb]
    omega

/-- C5 witness: the sorted series `[(0,1), (10,3)]` queried at `5` has
bracket index 0, a two-point window, and evaluates its Lagrange polynomial. -/
theorem C5_polynomial_local_window_witness :
    ∃ idx, find_interval 5 ([((0 : ℚ), (1 : ℚ)), (10, 3)].map Prod.fst) = some idx ∧
      idx + 1 < ([((0 : ℚ), (1 : ℚ)), (10, 3)] : List (ℚ × ℚ)).length ∧
      (([((0 : ℚ), (1 : ℚ)), (10, 3)] : List (ℚ × ℚ)).map Prod.fst).getD idx 0 ≤ 5 ∧
      (5 : ℚ) ≤ (([((0 : ℚ), (1 : ℚ)), (10, 3)] : List (ℚ × ℚ)).map Prod.fst).getD
        (idx + 1) 0 ∧
      2 ≤ (x_points [((0 : ℚ), (1 : ℚ)), (10, 3)] idx).length ∧
      (x_points [((0 : ℚ), (1 : ℚ)), (10, 3)] idx).length ≤ 5 ∧
      x_points [((0 : ℚ), (1 : ℚ)), (10, 3)] idx =
        ((([((0 : ℚ), (1 : ℚ)), (10, 3)] : List (ℚ × ℚ)).map Prod.fst).drop (idx - 2)).take
          (min ([((0 : ℚ), (1 : ℚ)), (10, 3)] : List (ℚ × ℚ)).length (idx + 3) - (idx - 2)) ∧
      y_points [((0 : ℚ), (1 : ℚ)), (10, 3)] idx =
        ((([((0 : ℚ), (1 : ℚ)), (10, 3)] : List (ℚ × ℚ)).map Prod.snd).drop (idx - 2)).take
          (min ([((0 : ℚ), (1 : ℚ)), (10, 3)] : List (ℚ × ℚ)).length (idx + 3) - (idx - 2)) ∧
      polynomial_fit_interpolate 5 [((0 : ℚ), (1 : ℚ)), (10, 3)] = .ok (some (Polynomial.eval 5
        ((Lagrange.interpolate
          (Finset.range (x_points [((0 : ℚ), (1 : ℚ)), (10, 3)] idx).length)
          (fun k => (x_points [((0 : ℚ), (1 : ℚ)), (10, 3)] idx).getD k 0))
          (fun k => (y_points [((0 : ℚ), (1 : ℚ)), (10, 3)] idx).getD k 0)))) :=
  C5_polynomial_local_window (by norm_num [List.pairwise_cons]) (by simp)
    (by norm_num) (by norm_num [List.head_cons]) (by norm_num [List.getLast])

/-- C6 counterexample: on a series with a duplicated minute, the Lagrange
window contains two equal nodes; the strategy raises `ZeroDivisionError`
instead of falling back to linear interpolation. -/
theorem C6_counterexample :
    polynomial_fit_interpolate 5 [(0, 1), (5, 2), (5, 3), (10, 4)] =
      .error "ZeroDivisionError" := by
  norm_num [polynomial_fit_interpolate, find_interval, x_points, y_points, lagOuter,
    lagInner, pydiv, List.getLast]

/-- C6 (amended): the polynomial strategy's `idx is None → linear` fallback
is dead code — whenever the boundary clamps pass, a bracketing interval is
found for any series of length ≥ 2; and for a strictly sorted series the
Lagrange fit always succeeds, so no exception reaches the caller.  (A
degenerate denominator — duplicate minutes, violating the Series invariant —
raises `ZeroDivisionError` rather than falling back to linear, per the
counterexample.) -/
theorem C6_polynomial_no_fallback :
    (∀ (events : List (ℚ × ℚ)) (q : ℚ) (hne : events ≠ []), 2 ≤ events.length →
      ¬ q < (events.head hne).1 → ¬ q > (events.getLast hne).1 →
      ∃ idx, find_interval q (events.map Prod.fst) = some idx) ∧
    (∀ (events : List (ℚ × ℚ)) (q : ℚ), events.Pairwise (fun a b => a.1 < b.1) →
      ∃ r, polynomial_fit_interpolate q events = .ok r) := by
  constructor
  · intro events q hne hlen hc1 hc2
    exact find_interval_isSome_getD (q := q) hlen
      (by rw [map_fst_getD_zero hne]; exact not_lt.mp hc1)
      (by rw [map_fst_getD_last hne]; exact not_lt.mp hc2)
  · intro events q hs
    match events with
    | [] => exact ⟨none, rfl⟩
    | e0 :: rest =>
      by_cases hl2 : (e0 :: rest).length < 2
      · refine ⟨none, ?_⟩
        simp only [polynomial_fit_interpolate]
        rw [if_pos hl2]
      · have hlen : 2 ≤ (e0 :: rest).length := not_lt.mp hl2
        have hne : (e0 :: rest) ≠ [] := List.cons_ne_nil e0 rest
        by_cases hb1 : q < e0.1
        · refine ⟨some e0.2, ?_⟩
          simp only [polynomial_fit_interpolate]
          rw [if_neg hl2, if_pos hb1]
        · by_cases hb2 : q > ((e0 :: rest).getLast (List.cons_ne_nil e0 rest)).1
          · refine ⟨some (((e0 :: rest).getLast (List.cons_ne_nil e0 rest)).2), ?_⟩
            simp only [polynomial_fit_interpolate]
            rw [if_neg hl2, if_neg hb1, if_pos hb2]
          · have hc1 : ¬ q < ((e0 :: rest).head hne).1 := by
              simpa only [List.head_cons] using hb1
            obtain ⟨idx, hidx⟩ := find_interval_isSome_getD (q := q) hlen
              (by rw [map_fst_getD_zero hne]; exact not_lt.mp hc1)
              (by rw [map_fst_getD_last hne]; exact not_lt.mp hb2)
            exact ⟨_, polynomial_fit_interpolate_window hs hne hlen hc1 hb2 hidx⟩

/-- C6 witness: on the sorted series `[(0,1), (10,3)]` every query produces a
normal (non-exceptional) result, e.g. at minute 5. -/
theorem C6_polynomial_no_fallback_witness :
    ∃ r, polynomial_fit_interpolate 5 [(0, 1), (10, 3)] = .ok r :=
  C6_polynomial_no_fallback.2 [(0, 1), (10, 3)] 5 (by norm_num [List.pairwise_cons])

/-! ## Lemmas: degenerate brackets in the linear and half-sine loops -/

theorem linearLoop_degenerate : ∀ (l1 : List (ℚ × ℚ)) {l2 : List (ℚ × ℚ)} {p r : ℚ × ℚ},
    p.1 = r.1 → (∀ a ∈ l1, a.1 < p.1) →
    linearLoop p.1 (l1 ++ p :: r :: l2) = some p.2
  | [], l2, p, r, hpr, hl1 => by
    rw [List.nil_append, linearLoop, if_pos ⟨le_refl p.1, le_of_eq hpr⟩, if_pos hpr.symm]
  | [a], l2, p, r, hpr, hl1 => by
    have hac : a.1 < p.1 := hl1 a (by simp)
    rw [List.cons_append, List.nil_append, linearLoop,
      if_pos ⟨le_of_lt hac, le_refl p.1⟩, if_neg (ne_of_gt hac)]
    rw [div_self (sub_ne_zero.mpr (ne_of_gt hac)), one_mul]
    congr 1
    ring
  | a :: b :: l1', l2, p, r, hpr, hl1 => by
    have hbc : b.1 < p.1 := hl1 b (by simp)
    rw [List.cons_append, List.cons_append, linearLoop,
      if_neg (fun hc => absurd hc.2 (not_le.mpr hbc))]
    rw [← List.cons_append]
    exact linearLoop_degenerate (b :: l1') hpr (fun x hx => hl1 x (List.mem_cons_of_mem a hx))

theorem halfSineLoop_degenerate : ∀ (l1 : List (ℚ × ℚ)) {l2 : List (ℚ × ℚ)} {p r : ℚ × ℚ},
    p.1 = r.1 → (∀ a ∈ l1, a.1 < p.1) →
    halfSineLoop p.1 (l1 ++ p :: r :: l2) = some (p.2 : ℝ)
  | [], l2, p, r, hpr, hl1 => by
    rw [List.nil_append, halfSineLoop, if_pos ⟨le_refl p.1, le_of_eq hpr⟩, if_pos hpr.symm]
  | [a], l2, p, r, hpr, hl1 => by
    have hac : a.1 < p.1 := hl1 a (by simp)
    rw [List.cons_append, List.nil_append, halfSineLoop,
      if_pos ⟨le_of_lt hac, le_refl p.1⟩, if_neg (ne_of_gt hac)]
    rw [div_self (sub_ne_zero.mpr (ne_of_gt hac))]
    rw [show Real.pi * ((1 : ℚ) : ℝ) - Real.pi / 2 = Real.pi / 2 by push_cast; ring,
      Real.sin_pi_div_two, mul_one]
    congr 1
    push_cast
    ring
  | a :: b :: l1', l2, p, r, hpr, hl1 => by
    have hbc : b.1 < p.1 := hl1 b (by simp)
    rw [List.cons_append, List.cons_append, halfSineLoop,
      if_neg (fun hc => absurd hc.2 (not_le.mpr hbc))]
    rw [← List.cons_append]
    exact halfSineLoop_degenerate (b :: l1') hpr
      (fun x hx => hl1 x (List.mem_cons_of_mem a hx))

/-- C7 counterexample: the Lagrange polynomial strategy has no degenerate
interval guard; a bracketing pair with `t1 == t2` puts two equal nodes in
the window and the division raises `ZeroDivisionError`. -/
theorem C7_counterexample :
    polynomial_fit_interpolate 5 [(5, 1), (5, 2)] = .error "ZeroDivisionError" := by
  norm_num [polynomial_fit_interpolate, find_interval, x_points, y_points, lagOuter,
    lagInner, pydiv, List.getLast]

/-- C7 (amended): when the bracketing pair found for a query has `t1 == t2`
(a degenerate interval, only possible when duplicate minutes violate the
Series invariant), the linear and half-sine strategies return the left value
`h1` deterministically, without dividing by zero; the Lagrange polynomial
strategy instead raises `ZeroDivisionError` (per the counterexample, restated
here on `[(5,1), (5,2)]`). -/
theorem C7_degenerate_interval {l1 l2 : List (ℚ × ℚ)} {p r : ℚ × ℚ}
    (hpr : p.1 = r.1) (hl1 : ∀ a ∈ l1, a.1 < p.1) (hl2 : ∀ a ∈ l2, p.1 ≤ a.1) :
    linear_interpolate p.1 (l1 ++ p :: r :: l2) = some p.2 ∧
    half_sine_interpolate p.1 (l1 ++ p :: r :: l2) = some (p.2 : ℝ) ∧
    polynomial_fit_interpolate 5 [(5, 1), (5, 2)] = .error "ZeroDivisionError" := by
  have hne : (l1 ++ p :: r :: l2) ≠ [] := by simp
  have hlen : 2 ≤ (l1 ++ p :: r :: l2).length := by
    simp only [List.length_append, List.length_cons]
    omega
  have hhead : ¬ p.1 < ((l1 ++ p :: r :: l2).head hne).1 := by
    refine not_lt.mpr ?_
    match l1 with
    | [] => exact le_refl p.1
    | a :: l1' => exact le_of_lt (hl1 a (by simp))
  have hlast : ¬ p.1 > ((l1 ++ p :: r :: l2).getLast hne).1 := by
    refine not_lt.mpr ?_
    have hgl : (l1 ++ p :: r :: l2).getLast hne = (p :: r :: l2).getLast (by simp) :=
      List.getLast_append' l1 (p :: r :: l2) (by simp)
    rw [hgl]
    have hmem := List.getLast_mem (show (p :: r :: l2) ≠ [] by simp)
    rcases List.mem_cons.mp hmem with h | h
    · rw [h]
    · rcases List.mem_cons.mp h with h2 | h2
      · rw [h2]
        exact le_of_eq hpr
      · exact hl2 _ h2
  refine ⟨?_, ?_, by
    norm_num [polynomial_fit_interpolate, find_interval, x_points, y_points, lagOuter,
      lagInner, pydiv, List.getLast]⟩
  · rw [linear_interpolate_in_range hne hhead hlast]
    exact linearLoop_degenerate l1 hpr hl1
  · rw [half_sine_interpolate_in_range hne hlen hhead hlast]
    exact halfSineLoop_degenerate l1 hpr hl1

/-- C7 witness: on the degenerate series `[(5,1), (5,2)]` itself, linear and
half-sine return the left value `1` at query 5. -/
theorem C7_degenerate_interval_witness :
    linear_interpolate 5 [(5, 1), (5, 2)] = some 1 ∧
    half_sine_interpolate 5 [(5, 1), (5, 2)] = some ((1 : ℚ) : ℝ) := by
  have h := @C7_degenerate_interval [] [] (5, 1) (5, 2)
    rfl (by simp) (by simp)
  exact ⟨h.1, h.2.1⟩

/-- C8: sampling the display window `[0, 1440]` at a fixed positive step
skips every query minute at which interpolation is undefined (no zero is
substituted), yields the empty sequence on an empty series without raising,
and emits points whose minutes are strictly increasing and at most 1440. -/
theorem C8_sampler {step : ℕ} (hstep : 0 < step) :
    sample_points [] step = [] ∧
    (∀ (events : List (ℚ × ℚ)) (t : ℕ) (v : ℝ),
      (t, v) ∈ sample_points events step ↔
        t ∈ sampleMinutes step ∧ half_sine_interpolate (t : ℚ) events = some v) ∧
    (∀ (events : List (ℚ × ℚ)) (t : ℕ), half_sine_interpolate (t : ℚ) events = none →
      ∀ v : ℝ, (t, v) ∉ sample_points events step) ∧
    (∀ events : List (ℚ × ℚ),
      ((sample_points events step).map Prod.fst).Pairwise (· < ·)) ∧
    (∀ (events : List (ℚ × ℚ)) (t : ℕ) (v : ℝ),
      (t, v) ∈ sample_points events step → t ≤ 1440) := by
  refine ⟨sample_points_empty step, fun events t v => sample_points_mem, ?_, ?_, ?_⟩
  · intro events t hnone v hmem
    have := (sample_points_mem.mp hmem).2
    rw [hnone] at this
    exact Option.noConfusion this
  · intro events
    exact sample_points_fst_pairwise events hstep
  · intro events t v hmem
    exact sampleMinutes_le (sample_points_mem.mp hmem).1

/-- C8 witness: at the code's step of 15 minutes, sampling the empty series
yields the empty point list. -/
theorem C8_sampler_witness : sample_points [] 15 = [] :=
  (C8_sampler (by norm_num)).1

/-- C10 counterexample: the claim says `0:30` parses successfully, but
`lstrip("0")` removes that leading zero too, leaving `":30"`, which `%H:%M`
rejects — the zero hour cannot be written at all in 24-hour form. -/
theorem C10_counterexample : time_str_to_minutes "0:30" = none := by decide

/-- C10 (amended): the time normalizer strips every leading `'0'` before
24-hour parsing, so both `00:30` and `0:30` are rejected (the whole midnight
hour is unwritable in 24-hour form), while hours with a nonzero digit such as
`01:30` still parse after stripping; every successfully parsed time is at
most 1439 minutes. -/
theorem C10_time_normalizer :
    time_str_to_minutes "00:30" = none ∧
    time_str_to_minutes "0:30" = none ∧
    time_str_to_minutes "01:30" = some 90 ∧
    ∀ (s : String) (n : ℕ), time_str_to_minutes s = some n → n ≤ 1439 :=
  ⟨by decide, by decide, by decide, fun s n h => time_str_to_minutes_le h⟩

/-- C10 witness: `13:30` parses to 810 minutes, within the 0..1439 range. -/
theorem C10_time_normalizer_witness :
    time_str_to_minutes "13:30" = some 810 ∧ 810 ≤ 1439 :=
  ⟨by decide, C10_time_normalizer.2.2.2 "13:30" 810 (by decide)⟩
